import Mathlib

/-!
Verification of the offset-synchronized tree-building algorithm of
`src/utils/markdown.ts` (the `editorRender` core, plus the custom-block
dispatch of `viewerRender`).

Source text and all emitted text fragments are modelled as `List Char`
(one entry per source character, `String.slice`/`split` become exact
list operations).  DOM elements are modelled as a pure tree; the
imperative stack/offset/block state of `editorRender` becomes a record
that every operation threads explicitly.
-/

namespace XStar

/-- The zero-width boundary marker `​` injected at line ends. -/
def mChar : Char := Char.ofNat 0x200B

/-- CSS class name prefix (`classNamePrefix` in the source). -/
def classNamePrefix : String := "x-star-md-editor-"

/-- An mdast node: `leaf` for nodes without a `children` field, `parent`
for container nodes.  `startOffset`/`endOffset` model
`node.position?.start.offset` / `node.position?.end.offset` (absent
positions give `none`); `depth` models the heading depth field. -/
inductive MdastNode : Type where
  | leaf (ty : String) (depth : Nat) (startOffset endOffset : Option Nat) : MdastNode
  | parent (ty : String) (depth : Nat) (startOffset endOffset : Option Nat)
      (children : List MdastNode) : MdastNode

namespace MdastNode

def ty : MdastNode → String
  | .leaf t _ _ _ => t
  | .parent t _ _ _ _ => t

def depth : MdastNode → Nat
  | .leaf _ d _ _ => d
  | .parent _ d _ _ _ => d

def startOffset : MdastNode → Option Nat
  | .leaf _ _ s _ => s
  | .parent _ _ s _ _ => s

def endOffset : MdastNode → Option Nat
  | .leaf _ _ _ e => e
  | .parent _ _ _ e _ => e

instance : Inhabited MdastNode := ⟨.leaf "" 0 none none⟩

end MdastNode

mutual
/-- A DOM child: a text node or an element. -/
inductive Dom : Type where
  | text : List Char → Dom
  | elem : El → Dom

/-- A DOM element: tag, class list (in insertion order, deduplicated like
`classList`), attributes, ordered children. -/
inductive El : Type where
  | mk : String → List String → List (String × String) → List Dom → El
end

namespace El

def tag : El → String
  | .mk t _ _ _ => t

def classes : El → List String
  | .mk _ c _ _ => c

def attrs : El → List (String × String)
  | .mk _ _ a _ => a

def children : El → List Dom
  | .mk _ _ _ ch => ch

/-- `document.createElement(tag)`. -/
def create (t : String) : El := .mk t [] [] []

instance : Inhabited El := ⟨create "div"⟩

/-- `el.append(child)`. -/
def appendChild : El → Dom → El
  | .mk t c a ch, d => .mk t c a (ch ++ [d])

/-- `el.classList.add(c)`: appends unless already present. -/
def addClass : El → String → El
  | .mk t c a ch, s => if s ∈ c then .mk t c a ch else .mk t (c ++ [s]) a ch

def addClasses (e : El) (cs : List String) : El := cs.foldl addClass e

/-- `el.setAttribute(k, v)`. -/
def setAttr : El → String → String → El
  | .mk t c a ch, k, v =>
      if (a.map Prod.fst).contains k then
        .mk t c (a.map fun p => if p.1 = k then (k, v) else p) ch
      else .mk t c (a ++ [(k, v)]) ch

end El

/-- A stack frame: the mdast node, its currently-open element, and the
"no content emitted yet" flag (`first`). -/
structure Frame : Type where
  node : MdastNode
  el : El
  first : Bool

instance : Inhabited Frame := ⟨default, default, true⟩

/-- The mutable build state of one `editorRender` call: scan offset,
stack (index 0 = outermost, as in the source's array), the current
block element, and the root's already-finalized block children. -/
structure RState : Type where
  scanOffset : Nat
  stack : List Frame
  block : El
  root : List El

namespace RState

/-- `stack[i]` (call sites always use valid indices). -/
def fr (st : RState) (i : Nat) : Frame := st.stack.getD i default

def setFr (st : RState) (i : Nat) (f : Frame) : RState :=
  { st with stack := st.stack.set i f }

end RState

/-- `isFlowContent`: whether a node's children are flow content. -/
def isFlowContent (node : MdastNode) : Bool :=
  node.ty == "blockquote" || node.ty == "listItem" || node.ty == "footnoteDefinition"

/-- The classes `pushElement` adds to the style element for `node`, in
`classList.add` order: the type class; a heading-depth class for
headings; and, for the opaque types `html`/`code`/`math`, the
`first`/`last` markers according to the flags. -/
def styleClasses (node : MdastNode) (first last : Bool) : List String :=
  [classNamePrefix ++ node.ty]
    ++ (if node.ty = "heading" then [classNamePrefix ++ "heading" ++ toString node.depth] else [])
    ++ (if node.ty = "html" ∨ node.ty = "code" ∨ node.ty = "math" then
          (if first then [classNamePrefix ++ "first"] else [])
            ++ (if last then [classNamePrefix ++ "last"] else [])
        else [])

/-- The index of the stack frame whose element receives the style
classes when frame `index` is closed:
`stack[index && !isFlowContent(stack[index - 1].node) ? index : 0]`. -/
def styleIndex (st : RState) (index : Nat) : Nat :=
  if index ≠ 0 ∧ ¬ isFlowContent (st.fr (index - 1)).node then index else 0

/-- `pushElement(index, last)`: add the style classes of the closing
frame's node to the style element, append the frame's element to its
parent (the block for index 0, the previous frame's element otherwise),
and replace the slot with a fresh element with `first := false`. -/
def pushElement (st : RState) (index : Nat) (last : Bool) : RState :=
  let fr := st.fr index
  let si := styleIndex st index
  let st := st.setFr si
    { st.fr si with el := (st.fr si).el.addClasses (styleClasses fr.node fr.first last) }
  if index = 0 then
    { st with
        block := st.block.appendChild (.elem (st.fr 0).el),
        stack := st.stack.set 0 ⟨fr.node, El.create "div", false⟩ }
  else
    let st := st.setFr (index - 1)
      { st.fr (index - 1) with el := (st.fr (index - 1)).el.appendChild (.elem (st.fr index).el) }
    st.setFr index ⟨fr.node, El.create "span", false⟩

/-- `pushBlock()`: add the block class to the current block, append it to
the root, and start a fresh block. -/
def pushBlock (st : RState) : RState :=
  { st with
      root := st.root ++ [st.block.addClass (classNamePrefix ++ "block")],
      block := El.create "div" }

/-- `createDelimiter(text)`. -/
def createDelimiter (text : List Char) : El :=
  ((El.create "span").appendChild (.text text)).addClass (classNamePrefix ++ "delimiter")

/-- `createLine(text)`: a `div` holding the text plus the boundary marker
in a single text node. -/
def createLine (text : List Char) : El :=
  (El.create "div").appendChild (.text (text ++ [mChar]))

/-- `text.split('\n')` on character lists. -/
def splitNl : List Char → List (List Char)
  | [] => [[]]
  | c :: rest =>
      match splitNl rest with
      | [] => [[]]
      | l :: ls => if c = '\n' then [] :: l :: ls else (c :: l) :: ls

/-- The content appended for one line segment: a delimiter span or plain
text. -/
def lineContent (delimiter : Bool) (l : List Char) : Dom :=
  if delimiter then .elem (createDelimiter l) else .text l

/-- Append a child to the innermost open element (`stack[stack.length - 1].el`). -/
def appendTop (st : RState) (d : Dom) : RState :=
  st.setFr (st.stack.length - 1)
    { st.fr (st.stack.length - 1) with el := (st.fr (st.stack.length - 1)).el.appendChild d }

/-- Append a child to the outermost open element (`stack[0].el`). -/
def appendFrame0 (st : RState) (d : Dom) : RState :=
  st.setFr 0 { st.fr 0 with el := (st.fr 0).el.appendChild d }

/-- `for (let j = stack.length - 1; j; j--) pushElement(j);` -/
def flushInner (st : RState) : RState :=
  ((List.range st.stack.length).reverse.dropLast).foldl
    (fun s j => pushElement s j false) st

/-- One iteration of the line loop of `addText` inside a node: flush all
inner frames, close the current line with the boundary marker, and
append the next segment (if non-empty) on the fresh line. -/
def addTextLineStep (delimiter : Bool) (s : RState) (l : List Char) : RState :=
  let s := flushInner s
  let s := appendFrame0 s (.text [mChar])
  let s := pushElement s 0 false
  if l ≠ [] then appendTop s (lineContent delimiter l) else s

/-- One iteration of the line loop of `addText` between blocks: the
segment becomes its own finalized single-line block and the consumed
line break advances the scan offset. -/
def addTextGapStep (s : RState) (l : List Char) : RState :=
  let s := { s with block := s.block.appendChild (.elem (createLine l)) }
  let s := pushBlock s
  { s with scanOffset := s.scanOffset + l.length + 1 }

/-- `addText(text, delimiter)`: split on line breaks; inside a node
(non-empty stack) append the first segment to the innermost element and
run the line loop on the remaining segments; between blocks (empty
stack) every segment except the last becomes its own finalized
single-line block, consuming the line break. -/
def addText (st : RState) (text : List Char) (delimiter : Bool) : RState :=
  let lines := splitNl text
  if st.stack.length ≠ 0 then
    let st := if lines.headD [] ≠ [] then appendTop st (lineContent delimiter (lines.headD [])) else st
    let st := (lines.drop 1).foldl (addTextLineStep delimiter) st
    { st with scanOffset := st.scanOffset + text.length }
  else
    lines.dropLast.foldl addTextGapStep st

/-- `sourceCode.slice(a, b)` (two-argument, non-negative offsets). -/
def jsSlice (src : List Char) (a b : Nat) : List Char :=
  (src.drop a).take (b - a)

/-- Push a fresh stack frame for `node`:
`stack.push({node, el: document.createElement(stack.length ? 'span' : 'div'), first: true})`. -/
def pushFrame (node : MdastNode) (st : RState) : RState :=
  { st with
      stack := st.stack ++
        [⟨node, El.create (if st.stack.length ≠ 0 then "span" else "div"), true⟩] }

/-- Close the current frame after its content was emitted: flush it into
its parent, or, when it is the only frame, finalize the line and the
block (appending the boundary marker, setting the block's `index`
attribute to the sibling index `i`, handing the block to the root, and
consuming the block-terminating line break). -/
def closeNode (i : Nat) (st : RState) : RState :=
  if st.stack.length > 1 then pushElement st (st.stack.length - 1) true
  else
    let st := appendFrame0 st (.text [mChar])
    let st := pushElement st 0 true
    let st := { st with block := st.block.setAttr "index" (toString i) }
    let st := pushBlock st
    { st with scanOffset := st.scanOffset + 1 }

/-- `stack.pop()`. -/
def popFrame (st : RState) : RState := { st with stack := st.stack.dropLast }

mutual
/-- The body of `getChildren`'s loop for a single node `nodes[i]`:
skip nodes without a range, clamp the start offset to the scan offset,
skip empty ranges; otherwise emit the delimiter gap, push a frame,
recurse into children or emit the leaf text, then close and pop the
frame.  For container nodes the recursive
`getChildren(node.children, endOffset)` call is written with
`getChildren`'s body inlined (`processNodes` followed by the trailing
delimiter text), so that the recursion is structural; `getChildren`
below is definitionally that composition. -/
def processNode (src : List Char) (node : MdastNode) (i : Nat) (st : RState) : RState :=
  match node.startOffset, node.endOffset with
  | some s0, some e =>
      let s1 := if s0 < st.scanOffset then st.scanOffset else s0
      if s1 ≥ e then st
      else
        let st := addText st (jsSlice src st.scanOffset s1) true
        let st := pushFrame node st
        let st :=
          match node with
          | .leaf _ _ _ _ => addText st (jsSlice src st.scanOffset e) false
          | .parent _ _ _ _ cs =>
              let st := processNodes src cs 0 st
              addText st (jsSlice src st.scanOffset e) true
        popFrame (closeNode i st)
  | _, _ => st

/-- The `for` loop of `getChildren`, threading the sibling index `i`. -/
def processNodes (src : List Char) (nodes : List MdastNode) (i : Nat) (st : RState) : RState :=
  match nodes with
  | [] => st
  | n :: rest => processNodes src rest (i + 1) (processNode src n i st)
end

/-- `getChildren(nodes, parentEndOffset)`: the sibling loop followed by
the trailing delimiter text up to the parent's end offset. -/
def getChildren (src : List Char) (nodes : List MdastNode) (parentEndOffset : Nat)
    (st : RState) : RState :=
  let st := processNodes src nodes 0 st
  addText st (jsSlice src st.scanOffset parentEndOffset) true

/-- The initial build state of one `editorRender` call. -/
def initState : RState := ⟨0, [], El.create "div", []⟩

/-- The state at the end of an `editorRender` pass: the top-level walk
followed by the trailing-line block when `scanOffset ≤ |src|`. -/
def editorRenderState (src : List Char) (tree : List MdastNode) : RState :=
  let st := getChildren src tree src.length initState
  if st.scanOffset ≤ src.length then
    let st := { st with block := st.block.appendChild (.elem (createLine (src.drop st.scanOffset))) }
    pushBlock st
  else st

/-- `editorRender(sourceCode)` for a given parsed tree: the root `div`
whose children are the finalized blocks. -/
def editorRender (src : List Char) (tree : List MdastNode) : El :=
  El.mk "div" [] [] ((editorRenderState src tree).root.map .elem)

mutual
/-- All text content below a DOM child, in document order. -/
def Dom.lineText : Dom → List Char
  | .text s => s
  | .elem e => El.lineText e

/-- All text content below an element, in document order. -/
def El.lineText : El → List Char
  | .mk _ _ _ ch => Dom.lineTextList ch

def Dom.lineTextList : List Dom → List Char
  | [] => []
  | d :: ds => Dom.lineText d ++ Dom.lineTextList ds
end

/-- Remove the injected zero-width boundary marker that closes a
finalized line (its final character). -/
def stripMarker (s : List Char) : List Char :=
  if s.getLast? = some mChar then s.dropLast else s

/-- The source characters represented by one finalized line: its text
content without the injected marker, plus the line break the line
consumed. -/
def lineRecon (d : Dom) : List Char := stripMarker d.lineText ++ ['\n']

/-- The source characters represented by one finalized block. -/
def blockRecon (b : El) : List Char := (b.children.map lineRecon).flatten

def blockReconD : Dom → List Char
  | .text s => s
  | .elem b => blockRecon b

/-- Reconstruction of the source text from an output tree: concatenate,
in document order, every literal/delimiter text fragment (ignoring the
injected zero-width markers) and one line-break placeholder per
finalized line, then drop the final placeholder (the last line of the
output consumes no line break). -/
def reconstruct (root : El) : List Char :=
  ((root.children.map blockReconD).flatten).dropLast

/-- Whether some child element of `b` carries class `c`. -/
def El.childHasClass (b : El) (c : String) : Bool :=
  b.children.any fun d =>
    match d with
    | .elem e => c ∈ e.classes
    | .text _ => false

mutual
/-- Whether some element of the tree has two child elements carrying the
`first` and the `last` marker class, respectively — i.e. whether the
first/last-marked per-line elements occur as siblings. -/
def Dom.hasFLSiblings : Dom → Bool
  | .text _ => false
  | .elem e => El.hasFLSiblings e

def El.hasFLSiblings : El → Bool
  | .mk t c a ch =>
      ((El.mk t c a ch).childHasClass (classNamePrefix ++ "first")
          && (El.mk t c a ch).childHasClass (classNamePrefix ++ "last"))
        || Dom.hasFLSiblingsList ch

def Dom.hasFLSiblingsList : List Dom → Bool
  | [] => false
  | d :: ds => Dom.hasFLSiblings d || Dom.hasFLSiblingsList ds
end

/-! ### The `viewerRender` custom-block path (claim C10)

The repository code involved is the `math` handler of the `remark-rehype`
configuration and the `custom` component passed to `toJsxRuntime`:

* handler: `node.meta ? h(node.position, 'custom', {meta, value}) : h(node, 'div')`
* component: `({meta, value}) => jsx(customBlocks[meta] ?? 'div', {children: value})`
-/

/-- The hast-level result of the `math` handler for a math node. -/
inductive MathHast : Type where
  /-- A `custom` element with `meta`/`value` attributes. -/
  | custom (meta : String) (value : String) : MathHast
  /-- A plain `div` (math without `meta`, handled by the KaTeX pipeline). -/
  | div : MathHast

/-- JavaScript truthiness of an optional string (`node.meta`):
`undefined` and the empty string are falsy. -/
def jsTruthy : Option String → Bool
  | none => false
  | some s => s ≠ ""

/-- The `math` handler of the `remark-rehype` options in `processor`. -/
def mathHandler (meta : Option String) (value : String) : MathHast :=
  if jsTruthy meta then MathHast.custom (meta.getD "") value else MathHast.div

/-- A rendered React node: a caller-supplied component applied to string
children, or a plain host element with string children. -/
inductive RNode : Type where
  | component (name : String) (children : String) : RNode
  | element (tag : String) (children : String) : RNode

/-- The `custom` component of `viewerRender`:
`jsx(options.customBlocks[meta] ?? 'div', { children: value })`.
A missing `customBlocks` entry yields `undefined`, so `??` falls back to
the `'div'` tag; no exception is possible. -/
def renderCustomTag (customBlocks : String → Option String) (meta value : String) : RNode :=
  match customBlocks meta with
  | some c => RNode.component c value
  | none => RNode.element "div" value

/-- Modelled from the spec: the external `toJsxRuntime` dispatch of
`viewerRender` (§6: the display path maps each node type to a
caller-supplied component, substituting the designated placeholder type
for math nodes carrying a non-empty `meta`, routed to the "custom block"
component keyed by that meta value).  The library itself is not part of
this repository; only its composition with the repository's handler and
`custom` component is modelled: a `custom` hast element is rendered by
the `custom` component, a plain `div` stays a host `div`. -/
def viewerRenderMath (customBlocks : String → Option String)
    (meta : Option String) (value : String) : RNode :=
  match mathHandler meta value with
  | MathHast.custom m v => renderCustomTag customBlocks m v
  | MathHast.div => RNode.element "div" value

/-- The attributes of a block child of the root (text children have none). -/
def domAttrs : Dom → List (String × String)
  | .text _ => []
  | .elem b => b.attrs

/-- Join line segments with `'\n'` (left inverse of `splitNl`). -/
def joinNl : List (List Char) → List Char
  | [] => []
  | [l] => l
  | l :: ls => l ++ '\n' :: joinNl ls

/-- `[k, k-1, …, 1]`: the index sequence of the flush loop
`for (let j = stack.length - 1; j; j--)`. -/
def revSeq : Nat → List Nat
  | 0 => []
  | k + 1 => (k + 1) :: revSeq k

mutual
/-- Range sanity of a parsed node relative to the bound `bnd` (its
parent's end offset, or the source length at top level): the node's end
offset, when present, is at most `bnd`, and its children are in turn
bounded by that end offset.  This is the spec's input contract
(`0 ≤ start ≤ end ≤ len`, children nested in their parent's range)
restricted to the parts the algorithm's invariants depend on. -/
def nodeWf (bnd : Nat) : MdastNode → Prop
  | .leaf _ _ _ e? =>
      match e? with
      | some e => e ≤ bnd
      | none => True
  | .parent _ _ _ e? cs =>
      match e? with
      | some e => e ≤ bnd ∧ nodesWf e cs
      | none => True

def nodesWf (bnd : Nat) : List MdastNode → Prop
  | [] => True
  | n :: ns => nodeWf bnd n ∧ nodesWf bnd ns
end

/-- Block-termination sanity of a top-level parsed node: its end offset,
when present, either reaches the end of the source or points at a line
break.  This is what the real markdown parser guarantees for top-level
nodes, and exactly what the block-end `scanOffset++` consumption
relies on. -/
def blockEndNl (src : List Char) (n : MdastNode) : Prop :=
  ∀ e, n.endOffset = some e → e = src.length ∨ src.getD e ' ' = '\n'

/-- The top-level hypothesis bundle for the fidelity theorem. -/
def treeOk (src : List Char) (tree : List MdastNode) : Prop :=
  nodesWf src.length tree ∧ ∀ n ∈ tree, blockEndNl src n

/-- Concatenated text content of a list of frames, outermost first. -/
def ptF (l : List Frame) : List Char :=
  (l.map fun f => f.el.lineText).flatten

/-- Pending text of the open stack frames. -/
def pendingText (st : RState) : List Char := ptF st.stack

/-- Source characters already represented by finalized blocks and the
lines of the current block. -/
def reconDone (st : RState) : List Char :=
  ((st.root.map blockRecon).flatten) ++ blockRecon st.block

/-- Source characters already represented by the whole build state. -/
def reconState (st : RState) : List Char := reconDone st ++ pendingText st

/-- Shape invariant of the block level: every finalized block is a `div`
carrying the block class, and the pending block is a `div`. -/
def blocksOk (s : RState) : Prop :=
  (∀ b ∈ s.root, b.tag = "div" ∧ (classNamePrefix ++ "block") ∈ b.classes)
    ∧ s.block.tag = "div"

/-- Invariant of the top-level walk for text fidelity: stack and current
block are empty between top-level nodes, and the source characters
represented by the state are exactly the scanned prefix — except after a
final block end that consumed a line break at the very end of the
source, where the representation is the whole source plus one
placeholder. -/
def topInv (src : List Char) (st : RState) : Prop :=
  st.stack = [] ∧ st.block.children = []
    ∧ ((st.scanOffset ≤ src.length ∧ reconState st = src.take st.scanOffset)
        ∨ (st.scanOffset = src.length + 1 ∧ reconState st = src ++ ['\n']))

/-! ## Theorems -/

/-! ### Foldl helpers -/

theorem foldl_pres {α : Type} (P : RState → Prop) (f : RState → α → RState)
    (h : ∀ s a, P s → P (f s a)) :
    ∀ (l : List α) (st : RState), P st → P (l.foldl f st) := by
  intro l
  induction l with
  | nil => intro st h0; exact h0
  | cons a l ih => intro st h0; exact ih _ (h st a h0)

/-! ### splitNl lemmas -/

theorem splitNl_ne_nil (s : List Char) : splitNl s ≠ [] := by
  cases s with
  | nil => simp [splitNl]
  | cons c r =>
    unfold splitNl
    cases h : splitNl r with
    | nil => simp
    | cons l ls => by_cases hc : c = '\n' <;> simp [hc]

theorem splitNl_sum (t : List Char) :
    ((splitNl t).map (fun l => l.length + 1)).sum = t.length + 1 := by
  induction t with
  | nil => simp [splitNl]
  | cons c r ih =>
    unfold splitNl
    cases h : splitNl r with
    | nil => exact absurd h (splitNl_ne_nil r)
    | cons l ls =>
      rw [h] at ih
      by_cases hc : c = '\n' <;> simp [hc] <;> simp at ih <;> omega

theorem splitNl_cons (c : Char) (rest : List Char) :
    splitNl (c :: rest)
      = match splitNl rest with
        | [] => [[]]
        | l :: ls => if c = '\n' then [] :: l :: ls else (c :: l) :: ls := rfl

theorem splitNl_no_nl (b : List Char) (h : '\n' ∉ b) : splitNl b = [b] := by
  induction b with
  | nil => rfl
  | cons c r ih =>
    have hc : c ≠ '\n' := fun hc => h (by simp [hc])
    have hr : '\n' ∉ r := fun hr => h (by simp [hr])
    rw [splitNl_cons, ih hr]
    simp [hc]

theorem splitNl_append_nl (a b : List Char) (ha : '\n' ∉ a) :
    splitNl (a ++ '\n' :: b) = a :: splitNl b := by
  induction a with
  | nil =>
    show splitNl ('\n' :: b) = [] :: splitNl b
    rw [splitNl_cons]
    cases h : splitNl b with
    | nil => exact absurd h (splitNl_ne_nil b)
    | cons l ls => simp
  | cons c a' ih =>
    have hc : c ≠ '\n' := fun hc => ha (by simp [hc])
    have ha' : '\n' ∉ a' := fun hr => ha (by simp [hr])
    show splitNl (c :: (a' ++ '\n' :: b)) = (c :: a') :: splitNl b
    rw [splitNl_cons, ih ha']
    simp [hc]

theorem jsSlice_eq_nil (src : List Char) (a b : Nat) (h : b ≤ a) :
    jsSlice src a b = [] := by
  have : b - a = 0 := by omega
  simp [jsSlice, this]

theorem jsSlice_full (src : List Char) : jsSlice src 0 src.length = src := by
  simp [jsSlice]

/-! ### scanOffset lemmas -/

theorem setFr_scan (st : RState) (i : Nat) (f : Frame) :
    (st.setFr i f).scanOffset = st.scanOffset := rfl

theorem pushElement_scan (st : RState) (i : Nat) (l : Bool) :
    (pushElement st i l).scanOffset = st.scanOffset := by
  unfold pushElement
  split <;> rfl

theorem pushBlock_scan (st : RState) : (pushBlock st).scanOffset = st.scanOffset := rfl

theorem appendTop_scan (st : RState) (d : Dom) : (appendTop st d).scanOffset = st.scanOffset := rfl

theorem appendFrame0_scan (st : RState) (d : Dom) :
    (appendFrame0 st d).scanOffset = st.scanOffset := rfl

theorem flushInner_scan (st : RState) : (flushInner st).scanOffset = st.scanOffset := by
  unfold flushInner
  exact foldl_pres (fun s => s.scanOffset = st.scanOffset) _
    (fun s j h => by
      show (pushElement s j false).scanOffset = st.scanOffset
      rw [pushElement_scan]; exact h) _ st rfl

theorem addTextLineStep_scan (d : Bool) (st : RState) (l : List Char) :
    (addTextLineStep d st l).scanOffset = st.scanOffset := by
  unfold addTextLineStep
  split <;> simp [appendTop_scan, pushElement_scan, appendFrame0_scan, flushInner_scan]

theorem addTextGapStep_scan (st : RState) (l : List Char) :
    (addTextGapStep st l).scanOffset = st.scanOffset + l.length + 1 := rfl

theorem addText_scan_nonempty (st : RState) (t : List Char) (d : Bool)
    (h : st.stack.length ≠ 0) :
    (addText st t d).scanOffset = st.scanOffset + t.length := by
  unfold addText
  simp only [h, if_true, ne_eq, not_false_eq_true, reduceIte]
  have h0 : (if (splitNl t).head?.getD [] = [] then st
      else appendTop st (lineContent d ((splitNl t).head?.getD []))).scanOffset
        = st.scanOffset := by
    split <;> simp [appendTop_scan]
  have h2 : ((splitNl t).tail.foldl (addTextLineStep d)
      (if (splitNl t).head?.getD [] = [] then st
        else appendTop st (lineContent d ((splitNl t).head?.getD [])))).scanOffset
        = st.scanOffset :=
    foldl_pres (fun s => s.scanOffset = st.scanOffset) (addTextLineStep d)
      (fun s a hs => by
        show (addTextLineStep d s a).scanOffset = st.scanOffset
        rw [addTextLineStep_scan]; exact hs) _ _ h0
  simp [h2]

theorem gapFold_scan (ls : List (List Char)) (st : RState) :
    (ls.foldl addTextGapStep st).scanOffset
      = st.scanOffset + ((ls.map fun l => l.length + 1).sum) := by
  induction ls generalizing st with
  | nil => simp
  | cons l ls ih => simp [List.foldl_cons, ih, addTextGapStep_scan]; omega

theorem addText_scan_empty (st : RState) (t : List Char) (d : Bool)
    (h : st.stack.length = 0) :
    (addText st t d).scanOffset
      = st.scanOffset + (((splitNl t).dropLast.map fun l => l.length + 1).sum) := by
  unfold addText
  simp only [h, ne_eq, not_true_eq_false, reduceIte]
  exact gapFold_scan _ _

theorem dropLast_map_sum_le (t : List Char) :
    (((splitNl t).dropLast.map fun l => l.length + 1).sum) ≤ t.length := by
  have h := splitNl_sum t
  have hne := splitNl_ne_nil t
  have hsplit : (splitNl t).dropLast ++ [(splitNl t).getLast hne] = splitNl t :=
    List.dropLast_append_getLast hne
  rw [← hsplit, List.map_append, List.sum_append] at h
  simp at h ⊢
  omega

theorem addText_scan_le (st : RState) (t : List Char) (d : Bool) :
    st.scanOffset ≤ (addText st t d).scanOffset := by
  by_cases h : st.stack.length = 0
  · rw [addText_scan_empty st t d h]; omega
  · rw [addText_scan_nonempty st t d h]; omega

theorem addText_scan_le_add (st : RState) (t : List Char) (d : Bool) :
    (addText st t d).scanOffset ≤ st.scanOffset + t.length := by
  by_cases h : st.stack.length = 0
  · rw [addText_scan_empty st t d h]
    have := dropLast_map_sum_le t
    omega
  · rw [addText_scan_nonempty st t d h]

theorem pushFrame_scan (n : MdastNode) (st : RState) :
    (pushFrame n st).scanOffset = st.scanOffset := rfl

theorem popFrame_scan (st : RState) : (popFrame st).scanOffset = st.scanOffset := rfl

theorem closeNode_scan_cases (i : Nat) (st : RState) :
    (closeNode i st).scanOffset = st.scanOffset
      ∨ (closeNode i st).scanOffset = st.scanOffset + 1 := by
  unfold closeNode
  split
  · exact Or.inl (pushElement_scan st _ true)
  · right
    simp [pushBlock_scan, pushElement_scan, appendFrame0_scan]

/-! ### List index helpers -/

theorem getD_set_self {α : Type} [Inhabited α] :
    ∀ (l : List α) (i : Nat) (f : α), i < l.length →
      (l.set i f).getD i default = f := by
  intro l
  induction l with
  | nil => intro i f h; simp at h
  | cons a t ih =>
    intro i f h
    cases i with
    | zero => simp
    | succ j => simpa using ih j f (by simpa using h)

theorem getD_set_of_ne {α : Type} [Inhabited α] :
    ∀ (l : List α) (i j : Nat) (f : α), i ≠ j →
      (l.set i f).getD j default = l.getD j default := by
  intro l
  induction l with
  | nil => intro i j f h; simp
  | cons a t ih =>
    intro i j f h
    cases i with
    | zero => cases j with
      | zero => exact absurd rfl h
      | succ k => simp
    | succ i' => cases j with
      | zero => simp
      | succ k => simpa using ih i' k f (by omega)

theorem take_set_of_le {α : Type} :
    ∀ (l : List α) (i j : Nat) (f : α), i ≤ j →
      (l.set j f).take i = l.take i := by
  intro l
  induction l with
  | nil => intro i j f h; simp
  | cons a t ih =>
    intro i j f h
    cases j with
    | zero => cases i with
      | zero => simp
      | succ => omega
    | succ j' => cases i with
      | zero => simp
      | succ i' => simpa using ih i' j' f (by omega)

theorem drop_set_of_lt {α : Type} :
    ∀ (l : List α) (j k : Nat) (f : α), j < k →
      (l.set j f).drop k = l.drop k := by
  intro l
  induction l with
  | nil => intro j k f h; simp
  | cons a t ih =>
    intro j k f h
    cases j with
    | zero => cases k with
      | zero => omega
      | succ k' => simp
    | succ j' => cases k with
      | zero => omega
      | succ k' => simpa using ih j' k' f (by omega)

/-! ### Stack length lemmas -/

theorem pushElement_stack_length (st : RState) (i : Nat) (l : Bool) :
    (pushElement st i l).stack.length = st.stack.length := by
  unfold pushElement
  split <;> simp [RState.setFr]

theorem appendTop_stack_length (st : RState) (d : Dom) :
    (appendTop st d).stack.length = st.stack.length := by
  simp [appendTop, RState.setFr]

theorem appendFrame0_stack_length (st : RState) (d : Dom) :
    (appendFrame0 st d).stack.length = st.stack.length := by
  simp [appendFrame0, RState.setFr]

theorem flushInner_stack_length (st : RState) :
    (flushInner st).stack.length = st.stack.length := by
  unfold flushInner
  exact foldl_pres (fun s => s.stack.length = st.stack.length) _
    (fun s j h => by
      show (pushElement s j false).stack.length = st.stack.length
      rw [pushElement_stack_length]; exact h) _ st rfl

theorem addTextLineStep_stack_length (d : Bool) (st : RState) (l : List Char) :
    (addTextLineStep d st l).stack.length = st.stack.length := by
  unfold addTextLineStep
  split <;>
    simp [appendTop_stack_length, pushElement_stack_length, appendFrame0_stack_length,
      flushInner_stack_length]

theorem addTextGapStep_stack (st : RState) (l : List Char) :
    (addTextGapStep st l).stack = st.stack := rfl

theorem addText_stack_length (st : RState) (t : List Char) (d : Bool) :
    (addText st t d).stack.length = st.stack.length := by
  unfold addText
  split
  · have h0 : (if (splitNl t).head?.getD [] = [] then st
        else appendTop st (lineContent d ((splitNl t).head?.getD []))).stack.length
          = st.stack.length := by
      split
      · rfl
      · exact appendTop_stack_length st _
    have h2 : ((splitNl t).tail.foldl (addTextLineStep d)
        (if (splitNl t).head?.getD [] = [] then st
          else appendTop st (lineContent d ((splitNl t).head?.getD [])))).stack.length
          = st.stack.length :=
      foldl_pres (fun s => s.stack.length = st.stack.length) (addTextLineStep d)
        (fun s a hs => by
          show (addTextLineStep d s a).stack.length = st.stack.length
          rw [addTextLineStep_stack_length]; exact hs) _ _ h0
    simpa using h2
  · exact foldl_pres (fun s => s.stack.length = st.stack.length) addTextGapStep
      (fun s a hs => by
        show (addTextGapStep s a).stack.length = st.stack.length
        rw [addTextGapStep_stack]; exact hs) _ st rfl

theorem pushFrame_stack_length (n : MdastNode) (st : RState) :
    (pushFrame n st).stack.length = st.stack.length + 1 := by
  simp [pushFrame]

theorem closeNode_stack_length (i : Nat) (st : RState) :
    (closeNode i st).stack.length = st.stack.length := by
  unfold closeNode
  split
  · exact pushElement_stack_length st _ true
  · simp [pushBlock, pushElement_stack_length, appendFrame0_stack_length]

theorem popFrame_stack_length (st : RState) :
    (popFrame st).stack.length = st.stack.length - 1 := by
  simp [popFrame]

/-! ### Root lemmas -/

theorem pushElement_root (st : RState) (i : Nat) (l : Bool) :
    (pushElement st i l).root = st.root := by
  unfold pushElement
  split <;> rfl

theorem appendTop_root (st : RState) (d : Dom) : (appendTop st d).root = st.root := rfl

theorem appendFrame0_root (st : RState) (d : Dom) : (appendFrame0 st d).root = st.root := rfl

theorem flushInner_root (st : RState) : (flushInner st).root = st.root := by
  unfold flushInner
  exact foldl_pres (fun s => s.root = st.root) _
    (fun s j h => by
      show (pushElement s j false).root = st.root
      rw [pushElement_root]; exact h) _ st rfl

theorem addTextLineStep_root (d : Bool) (st : RState) (l : List Char) :
    (addTextLineStep d st l).root = st.root := by
  unfold addTextLineStep
  split <;> simp [appendTop_root, pushElement_root, appendFrame0_root, flushInner_root]

theorem addText_root_ext (st : RState) (t : List Char) (d : Bool) :
    ∃ ext, (addText st t d).root = st.root ++ ext := by
  unfold addText
  split
  · have h0 : ∃ ext, (if (splitNl t).head?.getD [] = [] then st
        else appendTop st (lineContent d ((splitNl t).head?.getD []))).root
          = st.root ++ ext := by
      split
      · exact ⟨[], by simp⟩
      · exact ⟨[], by simp [appendTop_root]⟩
    have h2 : ∃ ext, ((splitNl t).tail.foldl (addTextLineStep d)
        (if (splitNl t).head?.getD [] = [] then st
          else appendTop st (lineContent d ((splitNl t).head?.getD [])))).root
          = st.root ++ ext :=
      foldl_pres (fun s => ∃ ext, s.root = st.root ++ ext) (addTextLineStep d)
        (fun s a hs => by
          obtain ⟨ext, he⟩ := hs
          exact ⟨ext, by rw [addTextLineStep_root]; exact he⟩) _ _ h0
    obtain ⟨ext, he⟩ := h2
    exact ⟨ext, by simpa using he⟩
  · exact foldl_pres (fun s => ∃ ext, s.root = st.root ++ ext) addTextGapStep
      (fun s a hs => by
        obtain ⟨ext, he⟩ := hs
        exact ⟨ext ++ [(s.block.appendChild (.elem (createLine a))).addClass
            (classNamePrefix ++ "block")], by
          show (addTextGapStep s a).root = _
          simp [addTextGapStep, pushBlock, he]⟩) _ st ⟨[], by simp⟩

theorem closeNode_root_ext (i : Nat) (st : RState) :
    ∃ ext, (closeNode i st).root = st.root ++ ext := by
  unfold closeNode
  split
  · exact ⟨[], by simp [pushElement_root]⟩
  · refine ⟨[((pushElement (appendFrame0 st (.text [mChar])) 0 true).block.setAttr
      "index" (toString i)).addClass (classNamePrefix ++ "block")], ?_⟩
    simp [pushBlock, pushElement_root, appendFrame0_root]

/-! ### Slice lemmas -/

theorem jsSlice_length (src : List Char) (a b : Nat) :
    (jsSlice src a b).length = min (b - a) (src.length - a) := by
  simp [jsSlice]

theorem addText_nil (st : RState) (d : Bool) : addText st [] d = st := by
  unfold addText
  split <;> simp [splitNl]

theorem addText_slice_scan_bound (src : List Char) (st : RState) (b : Nat) (d : Bool) :
    (addText st (jsSlice src st.scanOffset b) d).scanOffset
      ≤ max st.scanOffset src.length := by
  have h1 := addText_scan_le_add st (jsSlice src st.scanOffset b) d
  have h2 := jsSlice_length src st.scanOffset b
  omega

/-! ### A generic preservation principle for the tree walk

Every state transformation performed by `processNode`/`processNodes` is
one of: `addText` applied to a slice starting at the current scan
offset, `pushFrame`, `closeNode`, or `popFrame`.  A predicate closed
under these four operations is preserved by the whole walk. -/

mutual
theorem processNode_inv (src : List Char) (P : RState → Prop)
    (hAdd : ∀ (st : RState) (b : Nat) (dl : Bool),
      P st → P (addText st (jsSlice src st.scanOffset b) dl))
    (hPush : ∀ (st : RState) (n : MdastNode), P st → P (pushFrame n st))
    (hClose : ∀ (st : RState) (i : Nat), P st → P (closeNode i st))
    (hPop : ∀ st : RState, P st → P (popFrame st))
    (node : MdastNode) (i : Nat) (st : RState) (hP : P st) :
    P (processNode src node i st) := by
  cases node with
  | leaf ty dp s e =>
    cases s with
    | none => simpa [processNode] using hP
    | some s0 =>
      cases e with
      | none => simpa [processNode] using hP
      | some e0 =>
        unfold processNode
        simp only [MdastNode.startOffset, MdastNode.endOffset]
        split <;> split <;> first
          | exact hP
          | exact hPop _ (hClose _ i (hAdd _ e0 false (hPush _ _ (hAdd st _ true hP))))
  | parent ty dp s e cs =>
    cases s with
    | none => simpa [processNode] using hP
    | some s0 =>
      cases e with
      | none => simpa [processNode] using hP
      | some e0 =>
        unfold processNode
        simp only [MdastNode.startOffset, MdastNode.endOffset]
        split <;> split <;> first
          | exact hP
          | exact hPop _ (hClose _ i (hAdd _ e0 true
              (processNodes_inv src P hAdd hPush hClose hPop cs 0 _
                (hPush _ _ (hAdd st _ true hP)))))

theorem processNodes_inv (src : List Char) (P : RState → Prop)
    (hAdd : ∀ (st : RState) (b : Nat) (dl : Bool),
      P st → P (addText st (jsSlice src st.scanOffset b) dl))
    (hPush : ∀ (st : RState) (n : MdastNode), P st → P (pushFrame n st))
    (hClose : ∀ (st : RState) (i : Nat), P st → P (closeNode i st))
    (hPop : ∀ st : RState, P st → P (popFrame st))
    (nodes : List MdastNode) (i : Nat) (st : RState) (hP : P st) :
    P (processNodes src nodes i st) := by
  cases nodes with
  | nil => simpa [processNodes] using hP
  | cons n rest =>
    show P (processNodes src rest (i + 1) (processNode src n i st))
    exact processNodes_inv src P hAdd hPush hClose hPop rest (i + 1) _
      (processNode_inv src P hAdd hPush hClose hPop n i st hP)
end

theorem getChildren_inv (src : List Char) (P : RState → Prop)
    (hAdd : ∀ (st : RState) (b : Nat) (dl : Bool),
      P st → P (addText st (jsSlice src st.scanOffset b) dl))
    (hPush : ∀ (st : RState) (n : MdastNode), P st → P (pushFrame n st))
    (hClose : ∀ (st : RState) (i : Nat), P st → P (closeNode i st))
    (hPop : ∀ st : RState, P st → P (popFrame st))
    (nodes : List MdastNode) (p : Nat) (st : RState) (hP : P st) :
    P (getChildren src nodes p st) :=
  hAdd _ p true (processNodes_inv src P hAdd hPush hClose hPop nodes 0 st hP)

/-! ### Monotonicity of the scan offset through the walk -/

theorem getChildren_scan_mono (src : List Char) (nodes : List MdastNode) (p : Nat)
    (st : RState) : st.scanOffset ≤ (getChildren src nodes p st).scanOffset :=
  getChildren_inv src (fun s => st.scanOffset ≤ s.scanOffset)
    (fun s b dl h => le_trans h (addText_scan_le s _ dl))
    (fun s n h => h)
    (fun s i h => by
      show st.scanOffset ≤ (closeNode i s).scanOffset
      rcases closeNode_scan_cases i s with hc | hc <;> omega)
    (fun s h => h)
    nodes p st (le_refl _)

theorem processNode_scan_mono (src : List Char) (n : MdastNode) (i : Nat)
    (st : RState) : st.scanOffset ≤ (processNode src n i st).scanOffset :=
  processNode_inv src (fun s => st.scanOffset ≤ s.scanOffset)
    (fun s b dl h => le_trans h (addText_scan_le s _ dl))
    (fun s n h => h)
    (fun s i h => by
      show st.scanOffset ≤ (closeNode i s).scanOffset
      rcases closeNode_scan_cases i s with hc | hc <;> omega)
    (fun s h => h)
    n i st (le_refl _)

theorem processNodes_scan_mono (src : List Char) (nodes : List MdastNode) (i : Nat)
    (st : RState) : st.scanOffset ≤ (processNodes src nodes i st).scanOffset :=
  processNodes_inv src (fun s => st.scanOffset ≤ s.scanOffset)
    (fun s b dl h => le_trans h (addText_scan_le s _ dl))
    (fun s n h => h)
    (fun s i h => by
      show st.scanOffset ≤ (closeNode i s).scanOffset
      rcases closeNode_scan_cases i s with hc | hc <;> omega)
    (fun s h => h)
    nodes i st (le_refl _)

/-! ### The output always contains at least one block -/

/-- Helper for C4: `closeNode` either leaves scan offset and root alone,
or leaves a non-empty root. -/
theorem closeNode_cases (i : Nat) (st : RState) :
    ((closeNode i st).scanOffset = st.scanOffset ∧ (closeNode i st).root = st.root)
      ∨ (closeNode i st).root ≠ [] := by
  unfold closeNode
  split
  · exact Or.inl ⟨pushElement_scan st _ true, pushElement_root st _ true⟩
  · right
    simp [pushBlock]

theorem editorRenderState_root_ne (src : List Char) (tree : List MdastNode) :
    (editorRenderState src tree).root ≠ [] := by
  have hP : (getChildren src tree src.length initState).scanOffset ≤ src.length
      ∨ (getChildren src tree src.length initState).root ≠ [] :=
    getChildren_inv src (fun s => s.scanOffset ≤ src.length ∨ s.root ≠ [])
      (fun s b dl h => by
        rcases h with h | h
        · left
          have := addText_slice_scan_bound src s b dl
          omega
        · right
          obtain ⟨ext, he⟩ := addText_root_ext s _ dl
          rw [he]
          intro hc
          exact h (List.append_eq_nil.mp hc).1)
      (fun s n h => h)
      (fun s i h => by
        rcases closeNode_cases i s with ⟨hsc, hrt⟩ | hrt
        · rw [hsc, hrt]; exact h
        · exact Or.inr hrt)
      (fun s h => h)
      tree src.length initState (Or.inl (Nat.zero_le _))
  unfold editorRenderState
  dsimp only
  split
  · simp [pushBlock]
  · rcases hP with h | h
    · omega
    · exact h

/-! ### Stack length preservation through the walk -/

mutual
theorem processNode_stack_len (src : List Char) (n : MdastNode) (i : Nat) (st : RState) :
    (processNode src n i st).stack.length = st.stack.length := by
  cases n with
  | leaf ty dp s e =>
    cases s with
    | none => simp [processNode, MdastNode.startOffset, MdastNode.endOffset]
    | some s0 =>
      cases e with
      | none => simp [processNode, MdastNode.startOffset, MdastNode.endOffset]
      | some e0 =>
        unfold processNode
        simp only [MdastNode.startOffset, MdastNode.endOffset]
        split <;> split <;>
          simp [popFrame_stack_length, closeNode_stack_length, addText_stack_length,
            pushFrame_stack_length]
  | parent ty dp s e cs =>
    cases s with
    | none => simp [processNode, MdastNode.startOffset, MdastNode.endOffset]
    | some s0 =>
      cases e with
      | none => simp [processNode, MdastNode.startOffset, MdastNode.endOffset]
      | some e0 =>
        have hrec : ∀ st' : RState,
            (processNodes src cs 0 st').stack.length = st'.stack.length :=
          fun st' => processNodes_stack_len src cs 0 st'
        unfold processNode
        simp only [MdastNode.startOffset, MdastNode.endOffset]
        split <;> split <;>
          simp [popFrame_stack_length, closeNode_stack_length, addText_stack_length,
            pushFrame_stack_length, hrec]

theorem processNodes_stack_len (src : List Char) (nodes : List MdastNode) (i : Nat)
    (st : RState) : (processNodes src nodes i st).stack.length = st.stack.length := by
  cases nodes with
  | nil => simp [processNodes]
  | cons n rest =>
    show (processNodes src rest (i + 1) (processNode src n i st)).stack.length = _
    rw [processNodes_stack_len src rest (i + 1) _, processNode_stack_len src n i st]
end

/-! ### The scan offset bound -/

theorem closeNode_scan_gt1 (i : Nat) (st : RState) (h : 1 < st.stack.length) :
    (closeNode i st).scanOffset = st.scanOffset := by
  unfold closeNode
  rw [if_pos h]
  exact pushElement_scan st _ true

/-- The common shape of `processNode`'s non-skip branch: gap text, frame
push, content emission `F`, close, pop.  If `F` preserves the stack
length and respects the scan bound, the composite keeps the scan offset
at `max scanOffset src.length` for a non-empty starting stack (the close
then flushes into a parent frame and consumes nothing). -/
theorem node_body_bound (src : List Char) (st : RState) (b i : Nat)
    (F : RState → RState)
    (hFlen : ∀ s : RState, (F s).stack.length = s.stack.length)
    (hFbound : ∀ s : RState, s.stack.length ≠ 0 →
      (F s).scanOffset ≤ max s.scanOffset src.length)
    (h : st.stack.length ≠ 0) (node : MdastNode) :
    (popFrame (closeNode i
        (F (pushFrame node (addText st (jsSlice src st.scanOffset b) true))))).scanOffset
      ≤ max st.scanOffset src.length := by
  have l1 := addText_slice_scan_bound src st b true
  have l1len : (addText st (jsSlice src st.scanOffset b) true).stack.length ≠ 0 := by
    rw [addText_stack_length]; exact h
  have l2len : (pushFrame node (addText st (jsSlice src st.scanOffset b) true)).stack.length
      = (addText st (jsSlice src st.scanOffset b) true).stack.length + 1 :=
    pushFrame_stack_length _ _
  have l3 := hFbound (pushFrame node (addText st (jsSlice src st.scanOffset b) true))
    (by omega)
  have l3len := hFlen (pushFrame node (addText st (jsSlice src st.scanOffset b) true))
  have l4 : (closeNode i
      (F (pushFrame node (addText st (jsSlice src st.scanOffset b) true)))).scanOffset
        = (F (pushFrame node (addText st (jsSlice src st.scanOffset b) true))).scanOffset :=
    closeNode_scan_gt1 i _ (by omega)
  rw [popFrame_scan, l4]
  have l2scan : (pushFrame node (addText st (jsSlice src st.scanOffset b) true)).scanOffset
      = (addText st (jsSlice src st.scanOffset b) true).scanOffset := rfl
  rw [l2scan] at l3
  omega

mutual
theorem processNode_scan_bound (src : List Char) (n : MdastNode) (i : Nat) (st : RState)
    (h : st.stack.length ≠ 0) :
    (processNode src n i st).scanOffset ≤ max st.scanOffset src.length := by
  cases n with
  | leaf ty dp s e =>
    cases s with
    | none => simp [processNode, MdastNode.startOffset, MdastNode.endOffset]
    | some s0 =>
      cases e with
      | none => simp [processNode, MdastNode.startOffset, MdastNode.endOffset]
      | some e0 =>
        unfold processNode
        simp only [MdastNode.startOffset, MdastNode.endOffset]
        split <;> split <;> first
          | exact le_max_left _ _
          | exact node_body_bound src st _ i
              (fun s => addText s (jsSlice src s.scanOffset e0) false)
              (fun s => addText_stack_length s _ false)
              (fun s _ => addText_slice_scan_bound src s e0 false)
              h _
  | parent ty dp s e cs =>
    cases s with
    | none => simp [processNode, MdastNode.startOffset, MdastNode.endOffset]
    | some s0 =>
      cases e with
      | none => simp [processNode, MdastNode.startOffset, MdastNode.endOffset]
      | some e0 =>
        unfold processNode
        simp only [MdastNode.startOffset, MdastNode.endOffset]
        split <;> split <;> first
          | exact le_max_left _ _
          | exact node_body_bound src st _ i
              (fun s => addText (processNodes src cs 0 s)
                (jsSlice src (processNodes src cs 0 s).scanOffset e0) true)
              (fun s => by
                rw [addText_stack_length, processNodes_stack_len])
              (fun s hs => by
                show (addText (processNodes src cs 0 s)
                    (jsSlice src (processNodes src cs 0 s).scanOffset e0) true).scanOffset
                  ≤ max s.scanOffset src.length
                have h1 := processNodes_scan_bound src cs 0 s hs
                have h2 := addText_slice_scan_bound src (processNodes src cs 0 s) e0 true
                omega)
              h _

theorem processNodes_scan_bound (src : List Char) (nodes : List MdastNode) (i : Nat)
    (st : RState) (h : st.stack.length ≠ 0) :
    (processNodes src nodes i st).scanOffset ≤ max st.scanOffset src.length := by
  cases nodes with
  | nil => simp [processNodes]
  | cons n rest =>
    show (processNodes src rest (i + 1) (processNode src n i st)).scanOffset ≤ _
    have h1 : (processNode src n i st).stack.length ≠ 0 := by
      rw [processNode_stack_len]; exact h
    have h2 := processNodes_scan_bound src rest (i + 1) (processNode src n i st) h1
    have h3 := processNode_scan_bound src n i st h
    omega
end

/-- The non-skip branch of `processNode` at top level (empty starting
stack): the close step is a block end and consumes one extra offset. -/
theorem node_body_top (src : List Char) (st : RState) (b i : Nat)
    (F : RState → RState)
    (hFbound : ∀ s : RState, s.stack.length ≠ 0 →
      (F s).scanOffset ≤ max s.scanOffset src.length)
    (hstack : st.stack = [])
    (hscan : st.scanOffset ≤ src.length) (node : MdastNode) :
    (popFrame (closeNode i
        (F (pushFrame node (addText st (jsSlice src st.scanOffset b) true))))).scanOffset
      ≤ src.length + 1 := by
  have l1 := addText_slice_scan_bound src st b true
  have l1len : (addText st (jsSlice src st.scanOffset b) true).stack.length = 0 := by
    rw [addText_stack_length, hstack]; rfl
  have l2len : (pushFrame node (addText st (jsSlice src st.scanOffset b) true)).stack.length
      = (addText st (jsSlice src st.scanOffset b) true).stack.length + 1 :=
    pushFrame_stack_length _ _
  have l3 := hFbound (pushFrame node (addText st (jsSlice src st.scanOffset b) true))
    (by omega)
  have l2scan : (pushFrame node (addText st (jsSlice src st.scanOffset b) true)).scanOffset
      = (addText st (jsSlice src st.scanOffset b) true).scanOffset := rfl
  rw [l2scan] at l3
  have l4 := closeNode_scan_cases i
    (F (pushFrame node (addText st (jsSlice src st.scanOffset b) true)))
  rw [popFrame_scan]
  omega

theorem processNode_top_bound (src : List Char) (n : MdastNode) (i : Nat) (st : RState)
    (hstack : st.stack = [])
    (hend : ∀ e, n.endOffset = some e → e ≤ src.length)
    (hsc : st.scanOffset ≤ src.length + 1) :
    (processNode src n i st).scanOffset ≤ src.length + 1 := by
  cases n with
  | leaf ty dp s e =>
    cases s with
    | none => simpa [processNode, MdastNode.startOffset, MdastNode.endOffset] using hsc
    | some s0 =>
      cases e with
      | none => simpa [processNode, MdastNode.startOffset, MdastNode.endOffset] using hsc
      | some e0 =>
        have he : e0 ≤ src.length := hend e0 rfl
        unfold processNode
        simp only [MdastNode.startOffset, MdastNode.endOffset]
        split <;> split
        all_goals first
          | exact hsc
          | (rename_i h1 h2
             exact node_body_top src st _ i
               (fun s => addText s (jsSlice src s.scanOffset e0) false)
               (fun s _ => addText_slice_scan_bound src s e0 false)
               hstack (by omega) _)
  | parent ty dp s e cs =>
    cases s with
    | none => simpa [processNode, MdastNode.startOffset, MdastNode.endOffset] using hsc
    | some s0 =>
      cases e with
      | none => simpa [processNode, MdastNode.startOffset, MdastNode.endOffset] using hsc
      | some e0 =>
        have he : e0 ≤ src.length := hend e0 rfl
        unfold processNode
        simp only [MdastNode.startOffset, MdastNode.endOffset]
        split <;> split
        all_goals first
          | exact hsc
          | (rename_i h1 h2
             exact node_body_top src st _ i
               (fun s => addText (processNodes src cs 0 s)
                 (jsSlice src (processNodes src cs 0 s).scanOffset e0) true)
               (fun s hs => by
                 show (addText (processNodes src cs 0 s)
                     (jsSlice src (processNodes src cs 0 s).scanOffset e0) true).scanOffset
                   ≤ max s.scanOffset src.length
                 have h3 := processNodes_scan_bound src cs 0 s hs
                 have h4 := addText_slice_scan_bound src (processNodes src cs 0 s) e0 true
                 omega)
               hstack (by omega) _)

theorem processNodes_top_bound (src : List Char) :
    ∀ (nodes : List MdastNode) (i : Nat) (st : RState),
      st.stack = [] →
      (∀ n ∈ nodes, ∀ e, n.endOffset = some e → e ≤ src.length) →
      st.scanOffset ≤ src.length + 1 →
      (processNodes src nodes i st).scanOffset ≤ src.length + 1
        ∧ (processNodes src nodes i st).stack = [] := by
  intro nodes
  induction nodes with
  | nil =>
    intro i st h1 h2 h3
    exact ⟨by simpa [processNodes] using h3, by simpa [processNodes] using h1⟩
  | cons n rest ih =>
    intro i st h1 h2 h3
    have hn := processNode_top_bound src n i st h1 (h2 n (by simp)) h3
    have hnstack : (processNode src n i st).stack = [] := by
      have hl := processNode_stack_len src n i st
      rw [h1] at hl
      exact List.length_eq_zero.mp (by simpa using hl)
    exact ih (i + 1) _ hnstack (fun m hm e he => h2 m (by simp [hm]) e he) hn

theorem editorRenderState_scan_bound (src : List Char) (tree : List MdastNode)
    (hend : ∀ n ∈ tree, ∀ e, n.endOffset = some e → e ≤ src.length) :
    (editorRenderState src tree).scanOffset ≤ src.length + 1 := by
  obtain ⟨h1, h2⟩ := processNodes_top_bound src tree 0 initState rfl hend (Nat.zero_le _)
  have h3 : (getChildren src tree src.length initState).scanOffset ≤ src.length + 1 := by
    show (addText (processNodes src tree 0 initState)
        (jsSlice src (processNodes src tree 0 initState).scanOffset src.length)
        true).scanOffset ≤ _
    have h4 := addText_slice_scan_bound src (processNodes src tree 0 initState) src.length true
    omega
  unfold editorRenderState
  dsimp only
  split
  · exact h3
  · exact h3

/-! ### Element shape helpers -/

theorem El.tag_appendChild (e : El) (d : Dom) : (e.appendChild d).tag = e.tag := by
  cases e; rfl

theorem El.tag_addClass : ∀ (e : El) (c : String), (e.addClass c).tag = e.tag
  | .mk t cs a ch, c => by
    show (if c ∈ cs then El.mk t cs a ch else El.mk t (cs ++ [c]) a ch).tag = _
    split <;> rfl

theorem El.tag_setAttr : ∀ (e : El) (k v : String), (e.setAttr k v).tag = e.tag
  | .mk t cs a ch, k, v => by
    show (if (a.map Prod.fst).contains k then
        El.mk t cs (a.map fun p => if p.1 = k then (k, v) else p) ch
      else El.mk t cs (a ++ [(k, v)]) ch).tag = _
    split <;> rfl

theorem El.mem_addClass : ∀ (e : El) (c : String), c ∈ (e.addClass c).classes
  | .mk t cs a ch, c => by
    show c ∈ (if c ∈ cs then El.mk t cs a ch else El.mk t (cs ++ [c]) a ch).classes
    split
    · simpa [El.classes]
    · simp [El.classes]

theorem pushElement_block_tag (st : RState) (i : Nat) (l : Bool) :
    (pushElement st i l).block.tag = st.block.tag := by
  unfold pushElement
  split
  · exact El.tag_appendChild _ _
  · rfl

theorem flushInner_block (st : RState) : (flushInner st).block.tag = st.block.tag := by
  unfold flushInner
  exact foldl_pres (fun s => s.block.tag = st.block.tag) _
    (fun s j h => by
      show (pushElement s j false).block.tag = st.block.tag
      rw [pushElement_block_tag]; exact h) _ st rfl

/-! ### The block shape invariant -/

theorem pushElement_blocksOk (st : RState) (i : Nat) (l : Bool) (h : blocksOk st) :
    blocksOk (pushElement st i l) := by
  constructor
  · rw [pushElement_root]; exact h.1
  · rw [pushElement_block_tag]; exact h.2

theorem pushBlock_blocksOk (st : RState) (h : blocksOk st) : blocksOk (pushBlock st) := by
  constructor
  · intro b hb
    rcases List.mem_append.mp hb with hb | hb
    · exact h.1 b hb
    · have hb' : b = st.block.addClass (classNamePrefix ++ "block") := by simpa using hb
      subst hb'
      exact ⟨by rw [El.tag_addClass]; exact h.2, El.mem_addClass _ _⟩
  · rfl

theorem flushInner_blocksOk (st : RState) (h : blocksOk st) : blocksOk (flushInner st) := by
  unfold flushInner
  exact foldl_pres blocksOk _ (fun s j hs => pushElement_blocksOk s j false hs) _ st h

theorem addTextLineStep_blocksOk (d : Bool) (st : RState) (l : List Char)
    (h : blocksOk st) : blocksOk (addTextLineStep d st l) := by
  unfold addTextLineStep
  have h1 : blocksOk (pushElement (appendFrame0 (flushInner st) (.text [mChar])) 0 false) :=
    pushElement_blocksOk _ 0 false (flushInner_blocksOk st h)
  split
  · exact h1
  · exact h1

theorem addTextGapStep_blocksOk (st : RState) (l : List Char) (h : blocksOk st) :
    blocksOk (addTextGapStep st l) := by
  unfold addTextGapStep
  have h1 : blocksOk { st with block := st.block.appendChild (.elem (createLine l)) } :=
    ⟨h.1, by rw [El.tag_appendChild]; exact h.2⟩
  exact (pushBlock_blocksOk _ h1 : blocksOk (pushBlock _))

theorem addText_blocksOk (st : RState) (t : List Char) (d : Bool) (h : blocksOk st) :
    blocksOk (addText st t d) := by
  unfold addText
  split
  · have h0 : blocksOk (if (splitNl t).headD [] ≠ [] then
        appendTop st (lineContent d ((splitNl t).headD [])) else st) := by
      split
      · exact h
      · exact h
    have h2 : blocksOk (((splitNl t).drop 1).foldl (addTextLineStep d)
        (if (splitNl t).headD [] ≠ [] then
          appendTop st (lineContent d ((splitNl t).headD [])) else st)) :=
      foldl_pres blocksOk (addTextLineStep d)
        (fun s a hs => addTextLineStep_blocksOk d s a hs) _ _ h0
    exact h2
  · exact foldl_pres blocksOk addTextGapStep
      (fun s a hs => addTextGapStep_blocksOk s a hs) _ st h

theorem closeNode_blocksOk (i : Nat) (st : RState) (h : blocksOk st) :
    blocksOk (closeNode i st) := by
  unfold closeNode
  split
  · exact pushElement_blocksOk st _ true h
  · have h1 : blocksOk (pushElement (appendFrame0 st (.text [mChar])) 0 true) :=
      pushElement_blocksOk _ 0 true h
    have h2 : blocksOk { pushElement (appendFrame0 st (.text [mChar])) 0 true with
        block := (pushElement (appendFrame0 st (.text [mChar])) 0 true).block.setAttr
          "index" (toString i) } :=
      ⟨h1.1, by rw [El.tag_setAttr]; exact h1.2⟩
    exact (pushBlock_blocksOk _ h2 : blocksOk (pushBlock _))

theorem editorRenderState_blocksOk (src : List Char) (tree : List MdastNode) :
    blocksOk (editorRenderState src tree) := by
  have key : blocksOk (getChildren src tree src.length initState) :=
    getChildren_inv src blocksOk
      (fun s b dl hs => addText_blocksOk s _ dl hs)
      (fun s n hs => hs)
      (fun s i hs => closeNode_blocksOk i s hs)
      (fun s hs => hs)
      tree src.length initState ⟨fun b hb => absurd hb (by simp [initState]), rfl⟩
  unfold editorRenderState
  dsimp only
  split
  · exact pushBlock_blocksOk _ ⟨key.1, by rw [El.tag_appendChild]; exact key.2⟩
  · exact key

/-! ### Text-content lemmas for the reconstruction argument -/

theorem Dom.lineTextList_append (l1 l2 : List Dom) :
    Dom.lineTextList (l1 ++ l2) = Dom.lineTextList l1 ++ Dom.lineTextList l2 := by
  induction l1 with
  | nil => simp [Dom.lineTextList]
  | cons d ds ih => simp [Dom.lineTextList, ih]

theorem El.lineText_appendChild : ∀ (e : El) (d : Dom),
    (e.appendChild d).lineText = e.lineText ++ d.lineText
  | .mk t c a ch, d => by
    show Dom.lineTextList (ch ++ [d]) = Dom.lineTextList ch ++ d.lineText
    rw [Dom.lineTextList_append]
    simp [Dom.lineTextList]

theorem El.lineText_addClass : ∀ (e : El) (c : String),
    (e.addClass c).lineText = e.lineText
  | .mk t cs a ch, c => by
    show (if c ∈ cs then El.mk t cs a ch else El.mk t (cs ++ [c]) a ch).lineText = _
    split <;> rfl

theorem El.lineText_addClasses (e : El) (cs : List String) :
    (e.addClasses cs).lineText = e.lineText := by
  induction cs generalizing e with
  | nil => rfl
  | cons c cs ih =>
    show ((e.addClass c).addClasses cs).lineText = _
    rw [ih, El.lineText_addClass]

theorem El.lineText_setAttr : ∀ (e : El) (k v : String),
    (e.setAttr k v).lineText = e.lineText
  | .mk t cs a ch, k, v => by
    show (if (a.map Prod.fst).contains k then
        El.mk t cs (a.map fun p => if p.1 = k then (k, v) else p) ch
      else El.mk t cs (a ++ [(k, v)]) ch).lineText = _
    split <;> rfl

theorem El.lineText_create (t : String) : (El.create t).lineText = [] := rfl

theorem lineContent_lineText (d : Bool) (l : List Char) :
    (lineContent d l).lineText = l := by
  unfold lineContent
  split
  · show (createDelimiter l).lineText = l
    rw [createDelimiter, El.lineText_addClass, El.lineText_appendChild]
    rfl
  · rfl

theorem stripMarker_concat (s : List Char) : stripMarker (s ++ [mChar]) = s := by
  unfold stripMarker
  rw [List.getLast?_concat]
  simp

theorem lineRecon_createLine (l : List Char) :
    lineRecon (.elem (createLine l)) = l ++ ['\n'] := by
  show stripMarker (Dom.elem (createLine l)).lineText ++ ['\n'] = _
  have h : (Dom.elem (createLine l)).lineText = (l ++ [mChar]) := by
    show (createLine l).lineText = _
    rw [createLine, El.lineText_appendChild]
    rfl
  rw [h]
  rw [show l ++ [mChar] = l ++ [mChar] from rfl, stripMarker_concat]

theorem blockRecon_appendChild : ∀ (b : El) (d : Dom),
    blockRecon (b.appendChild d) = blockRecon b ++ lineRecon d
  | .mk t c a ch, d => by
    show ((ch ++ [d]).map lineRecon).flatten = (ch.map lineRecon).flatten ++ _
    simp

theorem blockRecon_addClass (b : El) (c : String) :
    blockRecon (b.addClass c) = blockRecon b := by
  cases b with
  | mk t cs a ch =>
    show blockRecon (if c ∈ cs then El.mk t cs a ch else El.mk t (cs ++ [c]) a ch) = _
    split <;> rfl

theorem blockRecon_setAttr (b : El) (k v : String) :
    blockRecon (b.setAttr k v) = blockRecon b := by
  cases b with
  | mk t cs a ch =>
    show blockRecon (if (a.map Prod.fst).contains k then
        El.mk t cs (a.map fun p => if p.1 = k then (k, v) else p) ch
      else El.mk t cs (a ++ [(k, v)]) ch) = _
    split <;> rfl

theorem ptF_append (l1 l2 : List Frame) : ptF (l1 ++ l2) = ptF l1 ++ ptF l2 := by
  simp [ptF]

theorem ptF_take_drop (l : List Frame) (i : Nat) (h : i < l.length) :
    ptF l = ptF (l.take i) ++ (l.getD i default).el.lineText ++ ptF (l.drop (i + 1)) := by
  induction l generalizing i with
  | nil => simp at h
  | cons f fs ih =>
    cases i with
    | zero => simp [ptF]
    | succ j =>
      have hj : j < fs.length := by simpa using h
      show ptF (f :: fs) = ptF (f :: fs.take j) ++ _ ++ ptF (fs.drop (j + 1))
      have e1 : ptF (f :: fs) = f.el.lineText ++ ptF fs := by simp [ptF]
      have e2 : ptF (f :: fs.take j) = f.el.lineText ++ ptF (fs.take j) := by simp [ptF]
      rw [e1, e2, ih j hj]
      simp

theorem drop_eq_getD_cons {α : Type} [Inhabited α] :
    ∀ (l : List α) (i : Nat), i < l.length → l.drop i = l.getD i default :: l.drop (i + 1) := by
  intro l
  induction l with
  | nil => intro i h; simp at h
  | cons a t ih =>
    intro i h
    cases i with
    | zero => simp
    | succ j => simpa using ih j (by simpa using h)

theorem set_take_comm {α : Type} :
    ∀ (l : List α) (j i : Nat) (f : α), j < i → (l.set j f).take i = (l.take i).set j f := by
  intro l
  induction l with
  | nil => intro j i f h; simp
  | cons a t ih =>
    intro j i f h
    cases j with
    | zero =>
      cases i with
      | zero => omega
      | succ i' => simp
    | succ j' =>
      cases i with
      | zero => omega
      | succ i' => simpa using ih j' i' f (by omega)

/-! ### Reconstruction behaviour of the build operations -/

theorem recon_pushBlock (st : RState) : reconState (pushBlock st) = reconState st := by
  unfold reconState reconDone pendingText pushBlock
  simp only [List.map_append, List.flatten_append, List.map_cons, List.map_nil,
    List.flatten_cons, List.flatten_nil, blockRecon_addClass]
  simp [show blockRecon (El.create "div") = [] from rfl]

theorem recon_appendTop (st : RState) (d : Dom) (h : st.stack ≠ []) :
    reconState (appendTop st d) = reconState st ++ d.lineText := by
  have hlen : 0 < st.stack.length := List.length_pos.mpr h
  have hidx : st.stack.length - 1 < st.stack.length := by omega
  unfold reconState reconDone pendingText appendTop RState.setFr RState.fr
  simp only []
  have e1 := ptF_take_drop
    (st.stack.set (st.stack.length - 1)
      { st.stack.getD (st.stack.length - 1) default with
          el := (st.stack.getD (st.stack.length - 1) default).el.appendChild d })
    (st.stack.length - 1) (by simpa using hidx)
  rw [take_set_of_le _ _ _ _ (le_refl _), getD_set_self _ _ _ hidx] at e1
  rw [drop_set_of_lt _ _ _ _ (by omega)] at e1
  have e2 := ptF_take_drop st.stack (st.stack.length - 1) hidx
  have e3 : st.stack.drop (st.stack.length - 1 + 1) = [] := by
    apply List.drop_eq_nil_of_le
    omega
  rw [e3] at e1 e2
  rw [El.lineText_appendChild] at e1
  rw [e1, e2]
  simp [ptF]

theorem pushElement_block_of_pos (st : RState) (i : Nat) (l : Bool) (h : i ≠ 0) :
    (pushElement st i l).block = st.block := by
  unfold pushElement
  rw [if_neg h]
  rfl

theorem styleIndex_lt (st : RState) (i : Nat) (h : i < st.stack.length) :
    styleIndex st i < st.stack.length := by
  unfold styleIndex
  split
  · exact h
  · omega

/-- The pure list content of `pushElement` at a positive index: a
line-text-preserving set at the style index, the parent slot absorbing
the closed slot's text, and the closed slot reset to empty, leave the
concatenated pending text unchanged. -/
theorem ptF_three_sets (stack : List Frame) (i si : Nat) (G P Q : Frame)
    (h1 : 1 ≤ i) (h2 : i < stack.length) (hsi : si < stack.length)
    (hG : G.el.lineText = (stack.getD si default).el.lineText)
    (hQ : Q.el.lineText = [])
    (hP : P.el.lineText = ((stack.set si G).getD (i - 1) default).el.lineText
        ++ ((stack.set si G).getD i default).el.lineText) :
    ptF (((stack.set si G).set (i - 1) P).set i Q) = ptF stack := by
  set L1 := stack.set si G with hL1
  have hL1len : L1.length = stack.length := by simp [hL1]
  have e0 : ptF L1 = ptF stack := by
    have eA := ptF_take_drop L1 si (by omega)
    have et : L1.take si = stack.take si := by rw [hL1]; exact take_set_of_le _ _ _ _ (le_refl _)
    have eg : L1.getD si default = G := by rw [hL1]; exact getD_set_self _ _ _ hsi
    have ed : L1.drop (si + 1) = stack.drop (si + 1) := by
      rw [hL1]; exact drop_set_of_lt _ _ _ _ (by omega)
    rw [et, eg, ed, hG] at eA
    rw [eA, ← ptF_take_drop stack si hsi]
  have e3 := ptF_take_drop ((L1.set (i - 1) P).set i Q) i
    (by simp [hL1len]; omega)
  rw [take_set_of_le _ _ _ _ (le_refl _)] at e3
  rw [getD_set_self _ _ _ (by simp [hL1len]; omega : i < (L1.set (i - 1) P).length)] at e3
  rw [drop_set_of_lt _ _ _ _ (by omega : i < i + 1)] at e3
  rw [set_take_comm _ _ _ _ (by omega : i - 1 < i)] at e3
  rw [drop_set_of_lt _ _ _ _ (by omega : i - 1 < i + 1)] at e3
  have e5 : ptF ((L1.take i).set (i - 1) P) = ptF (L1.take (i - 1)) ++ P.el.lineText := by
    have hlt : i - 1 < (L1.take i).length := by
      simp [hL1len]
      omega
    have e := ptF_take_drop ((L1.take i).set (i - 1) P) (i - 1) (by simpa using hlt)
    rw [take_set_of_le _ _ _ _ (le_refl _), getD_set_self _ _ _ hlt,
      drop_set_of_lt _ _ _ _ (by omega : i - 1 < i - 1 + 1)] at e
    have ht : (L1.take i).take (i - 1) = L1.take (i - 1) := by
      rw [List.take_take]
      congr 1
      omega
    have hd : (L1.take i).drop (i - 1 + 1) = [] := by
      apply List.drop_eq_nil_of_le
      simp [hL1len]
      omega
    rw [ht, hd] at e
    rw [e]
    simp [ptF]
  have e7 : ptF L1 = ptF (L1.take (i - 1)) ++ (L1.getD (i - 1) default).el.lineText
      ++ ((L1.getD i default).el.lineText ++ ptF (L1.drop (i + 1))) := by
    have e := ptF_take_drop L1 (i - 1) (by omega)
    rw [show i - 1 + 1 = i from by omega, drop_eq_getD_cons L1 i (by omega)] at e
    have hx : ptF (L1.getD i default :: L1.drop (i + 1))
        = (L1.getD i default).el.lineText ++ ptF (L1.drop (i + 1)) := by simp [ptF]
    rw [hx] at e
    rw [e]
  rw [e3, e5, hP, hQ, ← e0, e7]
  simp

theorem recon_pushElement_pos (st : RState) (i : Nat) (l : Bool)
    (h1 : 1 ≤ i) (h2 : i < st.stack.length) :
    reconState (pushElement st i l) = reconState st
      ∧ ((pushElement st i l).fr i).el = El.create "span"
      ∧ (∀ j, i < j → (pushElement st i l).fr j = st.fr j) := by
  have hsi := styleIndex_lt st i h2
  have hD : reconDone (pushElement st i l) = reconDone st := by
    unfold reconDone
    rw [pushElement_root st i l, pushElement_block_of_pos st i l (by omega)]
  have hstack : (pushElement st i l).stack
      = ((st.stack.set (styleIndex st i)
          { st.fr (styleIndex st i) with
              el := (st.fr (styleIndex st i)).el.addClasses
                (styleClasses (st.fr i).node (st.fr i).first l) }).set (i - 1)
          { (st.setFr (styleIndex st i)
              { st.fr (styleIndex st i) with
                  el := (st.fr (styleIndex st i)).el.addClasses
                    (styleClasses (st.fr i).node (st.fr i).first l) }).fr (i - 1) with
              el := ((st.setFr (styleIndex st i)
                  { st.fr (styleIndex st i) with
                      el := (st.fr (styleIndex st i)).el.addClasses
                        (styleClasses (st.fr i).node (st.fr i).first l) }).fr
                    (i - 1)).el.appendChild
                (.elem ((st.setFr (styleIndex st i)
                  { st.fr (styleIndex st i) with
                      el := (st.fr (styleIndex st i)).el.addClasses
                        (styleClasses (st.fr i).node (st.fr i).first l) }).fr i).el) }).set i
          ⟨(st.fr i).node, El.create "span", false⟩ := by
    unfold pushElement
    rw [if_neg (show ¬ i = 0 by omega)]
    rfl
  refine ⟨?_, ?_, ?_⟩
  · unfold reconState pendingText
    rw [hD, hstack]
    congr 1
    exact ptF_three_sets st.stack i (styleIndex st i) _ _ _ h1 h2 hsi
      (El.lineText_addClasses _ _) rfl (El.lineText_appendChild _ _)
  · unfold RState.fr
    rw [hstack]
    rw [getD_set_self _ i _ (by simpa using h2)]
  · intro j hj
    unfold RState.fr
    rw [hstack]
    rw [getD_set_of_ne _ i j _ (by omega), getD_set_of_ne _ (i - 1) j _ (by omega),
      getD_set_of_ne _ (styleIndex st i) j _ (by
        unfold styleIndex
        split <;> omega)]

/-! ### Join/take utilities for the fidelity proof -/

theorem getD_drop_one {α : Type} [Inhabited α] :
    ∀ (l : List α) (j : Nat), (l.drop 1).getD j default = l.getD (j + 1) default := by
  intro l j
  cases l with
  | nil => rfl
  | cons a t => rfl

theorem ptF_nil_of_getD :
    ∀ (L : List Frame), (∀ j, j < L.length → (L.getD j default).el.lineText = []) → ptF L = [] := by
  intro L
  induction L with
  | nil => intro _; rfl
  | cons f t ih =>
    intro h
    have h0 : f.el.lineText = [] := h 0 (by simp)
    have ht : ptF t = [] := ih fun j hj => h (j + 1) (by simpa using hj)
    simp [ptF] at ht ⊢
    exact ⟨h0, ht⟩

theorem pendingText_decomp (st : RState) (h : st.stack ≠ []) :
    pendingText st = (st.fr 0).el.lineText ++ ptF (st.stack.drop 1) := by
  have hlen : 0 < st.stack.length := List.length_pos.mpr h
  have e := ptF_take_drop st.stack 0 hlen
  simpa [pendingText, RState.fr, ptF] using e

theorem take_succ_getD {α : Type} :
    ∀ (l : List α) (n : Nat) (d : α), n < l.length → l.take (n + 1) = l.take n ++ [l.getD n d] := by
  intro l
  induction l with
  | nil => intro n d h; simp at h
  | cons a t ih =>
    intro n d h
    cases n with
    | zero => simp
    | succ m => simpa using ih m d (by simpa using h)

theorem take_append_slice (src : List Char) (a n : Nat) :
    src.take a ++ jsSlice src a n = src.take (a + (jsSlice src a n).length) := by
  unfold jsSlice
  rw [List.take_add]
  congr 1
  rw [List.length_take]
  rcases le_or_lt (n - a) (src.drop a).length with h | h
  · rw [min_eq_left h]
  · rw [min_eq_right (le_of_lt h), List.take_length, List.take_of_length_le (le_of_lt h)]

theorem take_slice_assemble (src : List Char) (a k n : Nat)
    (hk : k ≤ (jsSlice src a n).length) :
    src.take a ++ (jsSlice src a n).take k = src.take (a + k) := by
  unfold jsSlice at *
  rw [List.take_add]
  congr 1
  rw [List.take_take]
  have hlen : ((src.drop a).take (n - a)).length ≤ n - a := by
    rw [List.length_take]; omega
  have hmin : min k (n - a) = k := by omega
  rw [hmin]

theorem joinNl_eq (ls : List (List Char)) (h : ls ≠ []) :
    joinNl ls = ls.headD [] ++ ((ls.drop 1).map (fun l => '\n' :: l)).flatten := by
  induction ls with
  | nil => exact absurd rfl h
  | cons a t ih =>
    cases t with
    | nil => simp [joinNl]
    | cons b t2 =>
      have ih2 := ih (by simp)
      show a ++ '\n' :: joinNl (b :: t2) = _
      rw [ih2]
      simp

theorem joinNl_splitNl (t : List Char) : joinNl (splitNl t) = t := by
  induction t with
  | nil => rfl
  | cons c rest ih =>
    cases hs : splitNl rest with
    | nil => exact absurd hs (splitNl_ne_nil rest)
    | cons l ls =>
      rw [hs] at ih
      rw [splitNl_cons, hs]
      show joinNl (if c = '\n' then [] :: l :: ls else (c :: l) :: ls) = c :: rest
      by_cases hc : c = '\n'
      · rw [if_pos hc, hc]
        show [] ++ '\n' :: joinNl (l :: ls) = '\n' :: rest
        rw [ih]
        rfl
      · rw [if_neg hc]
        cases ls with
        | nil =>
          show c :: l = c :: rest
          rw [show joinNl [l] = l from rfl] at ih
          rw [ih]
        | cons m ms =>
          show (c :: l) ++ '\n' :: joinNl (m :: ms) = c :: rest
          have h2 : l ++ '\n' :: joinNl (m :: ms) = rest := ih
          simp [← h2]

theorem joinNl_dropLast (ls : List (List Char)) (h : ls ≠ []) :
    joinNl ls = ((ls.dropLast.map fun l => l ++ ['\n']).flatten) ++ ls.getLast h := by
  induction ls with
  | nil => exact absurd rfl h
  | cons a t ih =>
    cases t with
    | nil => simp [joinNl]
    | cons b t2 =>
      have ih2 := ih (by simp)
      show a ++ '\n' :: joinNl (b :: t2) = _
      rw [ih2]
      simp [List.getLast_cons]

theorem splitNl_consumed (t : List Char) :
    (((splitNl t).dropLast).map (fun l => l ++ ['\n'])).flatten
      = t.take ((((splitNl t).dropLast).map fun l => l.length + 1).sum) := by
  have hne := splitNl_ne_nil t
  have hdec : (((splitNl t).dropLast).map (fun l => l ++ ['\n'])).flatten
      ++ (splitNl t).getLast hne = t := by
    rw [← joinNl_dropLast (splitNl t) hne, joinNl_splitNl]
  have hlen : ((((splitNl t).dropLast).map (fun l => l ++ ['\n'])).flatten).length
      = (((splitNl t).dropLast).map fun l => l.length + 1).sum := by
    rw [List.length_flatten]
    congr 1
    rw [List.map_map]
    congr 1
    funext l
    simp
  have h1 : (((splitNl t).dropLast).map (fun l => l ++ ['\n'])).flatten
      = ((((splitNl t).dropLast).map (fun l => l ++ ['\n'])).flatten
          ++ (splitNl t).getLast hne).take
          ((((splitNl t).dropLast).map (fun l => l ++ ['\n'])).flatten).length :=
    (List.take_left _ _).symm
  rw [h1, hdec, hlen]

theorem reverse_range_dropLast :
    ∀ (k : Nat), ((List.range (k + 1)).reverse).dropLast = revSeq k := by
  intro k
  induction k with
  | zero => rfl
  | succ m ih =>
    rw [List.range_succ, List.reverse_append]
    show ((m + 1) :: (List.range (m + 1)).reverse).dropLast = revSeq (m + 1)
    rw [List.dropLast_cons_of_ne_nil (by simp)]
    rw [ih]
    rfl

/-! ### Reconstruction behaviour of line closing and block ends -/

theorem appendFrame0_drop_one (st : RState) (d : Dom) :
    (appendFrame0 st d).stack.drop 1 = st.stack.drop 1 := by
  unfold appendFrame0 RState.setFr
  simp only []
  exact drop_set_of_lt _ _ _ _ (by omega)

theorem appendFrame0_fr0 (st : RState) (d : Dom) (h : st.stack ≠ []) :
    (appendFrame0 st d).fr 0 = { st.fr 0 with el := (st.fr 0).el.appendChild d } := by
  have hlen : 0 < st.stack.length := List.length_pos.mpr h
  unfold appendFrame0 RState.fr RState.setFr
  simp only []
  exact getD_set_self _ _ _ hlen

theorem recon_pushElement_zero (st : RState) (l : Bool) (h : st.stack ≠ []) :
    reconState (pushElement st 0 l)
      = reconDone st ++ (stripMarker ((st.fr 0).el.lineText) ++ ['\n'])
        ++ ptF (st.stack.drop 1)
    ∧ (pushElement st 0 l).stack
        = st.stack.set 0 ⟨(st.fr 0).node, El.create "div", false⟩ := by
  have hlen : 0 < st.stack.length := List.length_pos.mpr h
  have hstack0 : (pushElement st 0 l).stack
      = (st.stack.set 0 { st.fr 0 with el := (st.fr 0).el.addClasses (styleClasses (st.fr 0).node (st.fr 0).first l) }).set 0 ⟨(st.fr 0).node, El.create "div", false⟩ := rfl
  have hset : (pushElement st 0 l).stack
      = st.stack.set 0 ⟨(st.fr 0).node, El.create "div", false⟩ := by
    rw [hstack0, List.set_set]
  have hblock0 : (pushElement st 0 l).block
      = st.block.appendChild (.elem ((st.setFr 0 { st.fr 0 with el := (st.fr 0).el.addClasses (styleClasses (st.fr 0).node (st.fr 0).first l) }).fr 0).el) := rfl
  have hfr0el : ((st.setFr 0 { st.fr 0 with el := (st.fr 0).el.addClasses (styleClasses (st.fr 0).node (st.fr 0).first l) }).fr 0).el
      = (st.fr 0).el.addClasses (styleClasses (st.fr 0).node (st.fr 0).first l) := by
    have e : (st.setFr 0 { st.fr 0 with el := (st.fr 0).el.addClasses (styleClasses (st.fr 0).node (st.fr 0).first l) }).fr 0
        = { st.fr 0 with el := (st.fr 0).el.addClasses (styleClasses (st.fr 0).node (st.fr 0).first l) } := by
      unfold RState.fr RState.setFr
      simp only []
      exact getD_set_self _ _ _ hlen
    rw [e]
  rw [hfr0el] at hblock0
  have hlr : lineRecon (.elem ((st.fr 0).el.addClasses
      (styleClasses (st.fr 0).node (st.fr 0).first l)))
      = stripMarker ((st.fr 0).el.lineText) ++ ['\n'] := by
    have e : (Dom.elem ((st.fr 0).el.addClasses
        (styleClasses (st.fr 0).node (st.fr 0).first l))).lineText
        = (st.fr 0).el.lineText := El.lineText_addClasses _ _
    unfold lineRecon
    rw [e]
  have hptF : ptF (st.stack.set 0 ⟨(st.fr 0).node, El.create "div", false⟩)
      = ptF (st.stack.drop 1) := by
    have e := ptF_take_drop (st.stack.set 0 ⟨(st.fr 0).node, El.create "div", false⟩) 0
      (by simpa using hlen)
    rw [getD_set_self _ _ _ hlen, drop_set_of_lt _ _ _ _ (by omega)] at e
    simpa [ptF, El.lineText_create] using e
  refine ⟨?_, hset⟩
  unfold reconState reconDone pendingText
  rw [pushElement_root st 0 l, hblock0, blockRecon_appendChild, hset, hptF, hlr]
  simp

theorem recon_lineClose (st : RState) (lst : Bool) (h : st.stack ≠ [])
    (hEmpty : ptF (st.stack.drop 1) = []) :
    reconState (pushElement (appendFrame0 st (.text [mChar])) 0 lst)
      = reconState st ++ ['\n']
    ∧ (pushElement (appendFrame0 st (.text [mChar])) 0 lst).stack
        = st.stack.set 0 ⟨(st.fr 0).node, El.create "div", false⟩ := by
  have hlen : 0 < st.stack.length := List.length_pos.mpr h
  have hA : (appendFrame0 st (.text [mChar])).stack ≠ [] := by
    intro hnil
    have hl := appendFrame0_stack_length st (.text [mChar])
    rw [hnil] at hl
    simp at hl
    omega
  obtain ⟨z1, z2⟩ := recon_pushElement_zero (appendFrame0 st (.text [mChar])) lst hA
  have hfr0A := appendFrame0_fr0 st (.text [mChar]) h
  have hdropA := appendFrame0_drop_one st (.text [mChar])
  constructor
  · rw [z1, hdropA, hEmpty]
    have hDone : reconDone (appendFrame0 st (.text [mChar])) = reconDone st := rfl
    have hlt : ((appendFrame0 st (.text [mChar])).fr 0).el.lineText
        = (st.fr 0).el.lineText ++ [mChar] := by
      rw [hfr0A]
      show ((st.fr 0).el.appendChild (.text [mChar])).lineText = _
      rw [El.lineText_appendChild]
      rfl
    rw [hDone, hlt, stripMarker_concat]
    rw [show reconState st = reconDone st ++ pendingText st from rfl,
      pendingText_decomp st h, hEmpty]
    simp
  · rw [z2, hfr0A]
    show (st.stack.set 0 { st.fr 0 with el := (st.fr 0).el.appendChild (.text [mChar]) }).set 0
        ⟨({ st.fr 0 with el := (st.fr 0).el.appendChild (.text [mChar]) } : Frame).node,
          El.create "div", false⟩ = _
    rw [List.set_set]

theorem recon_pushFrame (n : MdastNode) (st : RState) :
    reconState (pushFrame n st) = reconState st := by
  unfold reconState reconDone pendingText pushFrame
  simp only []
  rw [ptF_append]
  simp [ptF, El.lineText_create]

theorem recon_scan_set (st : RState) (k : Nat) :
    reconState { st with scanOffset := k } = reconState st := rfl

theorem recon_setAttrBlock (st : RState) (k v : String) :
    reconState { st with block := st.block.setAttr k v } = reconState st := by
  unfold reconState reconDone pendingText
  rw [blockRecon_setAttr]

theorem closeNode_recon_gt1 (i : Nat) (st : RState) (h : 1 < st.stack.length) :
    reconState (closeNode i st) = reconState st := by
  unfold closeNode
  rw [if_pos h]
  exact (recon_pushElement_pos st (st.stack.length - 1) true (by omega) (by omega)).1

theorem closeNode_fr_last (i : Nat) (st : RState) (h : 1 < st.stack.length) :
    ((closeNode i st).fr (st.stack.length - 1)).el = El.create "span" := by
  unfold closeNode
  rw [if_pos h]
  exact (recon_pushElement_pos st (st.stack.length - 1) true (by omega) (by omega)).2.1

theorem popFrame_recon_of_last_empty (st : RState) (h : st.stack ≠ [])
    (he : (st.fr (st.stack.length - 1)).el.lineText = []) :
    reconState (popFrame st) = reconState st := by
  have hlen : 0 < st.stack.length := List.length_pos.mpr h
  have hidx : st.stack.length - 1 < st.stack.length := by omega
  unfold reconState reconDone pendingText popFrame
  simp only []
  have e := ptF_take_drop st.stack (st.stack.length - 1) hidx
  rw [show st.stack.length - 1 + 1 = st.stack.length from by omega] at e
  rw [List.drop_length] at e
  rw [show (st.stack.getD (st.stack.length - 1) default).el.lineText = [] from he] at e
  rw [List.dropLast_eq_take, e]
  simp [ptF]

theorem closeNode_recon_eq1 (i : Nat) (st : RState) (h : st.stack.length = 1) :
    reconState (closeNode i st) = reconState st ++ ['\n']
    ∧ (closeNode i st).stack = st.stack.set 0 ⟨(st.fr 0).node, El.create "div", false⟩
    ∧ (closeNode i st).block = El.create "div"
    ∧ (closeNode i st).scanOffset = st.scanOffset + 1 := by
  have hne : st.stack ≠ [] := by
    intro hnil
    rw [hnil] at h
    simp at h
  have hEmpty : ptF (st.stack.drop 1) = [] := by
    rw [List.drop_eq_nil_of_le (by omega)]
    rfl
  obtain ⟨c1, c2⟩ := recon_lineClose st true hne hEmpty
  unfold closeNode
  rw [if_neg (by omega)]
  dsimp only
  refine ⟨?_, ?_, ?_, ?_⟩
  · rw [recon_scan_set, recon_pushBlock, recon_setAttrBlock]
    exact c1
  · exact c2
  · rfl
  · rfl

/-! ### Reconstruction behaviour of `flushInner` and `addText` -/

theorem flushSeq_spec :
    ∀ (k : Nat) (st : RState), k < st.stack.length →
      reconState ((revSeq k).foldl (fun s j => pushElement s j false) st) = reconState st
      ∧ ((revSeq k).foldl (fun s j => pushElement s j false) st).stack.length = st.stack.length
      ∧ ((revSeq k).foldl (fun s j => pushElement s j false) st).root = st.root
      ∧ ((revSeq k).foldl (fun s j => pushElement s j false) st).block = st.block
      ∧ (∀ j, 1 ≤ j → j ≤ k →
          (((revSeq k).foldl (fun s j => pushElement s j false) st).fr j).el.lineText = [])
      ∧ (∀ j, k < j →
          ((revSeq k).foldl (fun s j => pushElement s j false) st).fr j = st.fr j) := by
  intro k
  induction k with
  | zero =>
    intro st hk
    exact ⟨rfl, rfl, rfl, rfl, fun j h1 h2 => absurd (Nat.le_trans h1 h2) (by omega),
      fun j hj => rfl⟩
  | succ m ih =>
    intro st hk
    have hstep := recon_pushElement_pos st (m + 1) false (by omega) hk
    have hlen1 : (pushElement st (m + 1) false).stack.length = st.stack.length :=
      pushElement_stack_length st (m + 1) false
    have hk1 : m < (pushElement st (m + 1) false).stack.length := by omega
    obtain ⟨r1, r2, r3, r4, r5, r6⟩ := ih (pushElement st (m + 1) false) hk1
    have hfold : (revSeq (m + 1)).foldl (fun s j => pushElement s j false) st
        = (revSeq m).foldl (fun s j => pushElement s j false) (pushElement st (m + 1) false) := rfl
    rw [hfold]
    refine ⟨?_, ?_, ?_, ?_, ?_, ?_⟩
    · rw [r1, hstep.1]
    · rw [r2, hlen1]
    · rw [r3, pushElement_root]
    · rw [r4, pushElement_block_of_pos st (m + 1) false (by omega)]
    · intro j h1 h2
      rcases Nat.lt_or_ge j (m + 1) with hj | hj
      · exact r5 j h1 (by omega)
      · have hj1 : j = m + 1 := by omega
        rw [hj1, r6 (m + 1) (by omega), hstep.2.1, El.lineText_create]
    · intro j hj
      rw [r6 j (by omega), hstep.2.2 j (by omega)]

theorem flushInner_spec (st : RState) (h : st.stack ≠ []) :
    reconState (flushInner st) = reconState st
    ∧ (flushInner st).stack.length = st.stack.length
    ∧ (flushInner st).root = st.root
    ∧ (flushInner st).block = st.block
    ∧ ptF ((flushInner st).stack.drop 1) = []
    ∧ (flushInner st).stack ≠ [] := by
  have hlen : 0 < st.stack.length := List.length_pos.mpr h
  have hrw : (List.range st.stack.length).reverse.dropLast = revSeq (st.stack.length - 1) := by
    obtain ⟨k, hk⟩ : ∃ k, st.stack.length = k + 1 := ⟨st.stack.length - 1, by omega⟩
    rw [hk]
    simp only [Nat.add_sub_cancel]
    exact reverse_range_dropLast k
  have hflush : flushInner st
      = (revSeq (st.stack.length - 1)).foldl (fun s j => pushElement s j false) st := by
    unfold flushInner
    rw [hrw]
  obtain ⟨r1, r2, r3, r4, r5, r6⟩ := flushSeq_spec (st.stack.length - 1) st (by omega)
  rw [hflush]
  refine ⟨r1, r2, r3, r4, ?_, ?_⟩
  · apply ptF_nil_of_getD
    intro j hj
    have hL : ((((revSeq (st.stack.length - 1)).foldl
        (fun s j => pushElement s j false) st).stack.drop 1)).length
        = st.stack.length - 1 := by
      rw [List.length_drop, r2]
    rw [getD_drop_one]
    exact r5 (j + 1) (by omega) (by omega)
  · intro hnil
    rw [hnil] at r2
    simp at r2
    omega

theorem addTextLineStep_recon (d : Bool) (st : RState) (l : List Char) (h : st.stack ≠ []) :
    reconState (addTextLineStep d st l) = reconState st ++ '\n' :: l
    ∧ (addTextLineStep d st l).stack.length = st.stack.length := by
  obtain ⟨f1, f2, f3, f4, f5, f6⟩ := flushInner_spec st h
  obtain ⟨c1, c2⟩ := recon_lineClose (flushInner st) false f6 f5
  have hs2len : (pushElement (appendFrame0 (flushInner st) (.text [mChar])) 0 false).stack.length
      = st.stack.length := by
    rw [c2, List.length_set, f2]
  have hs2ne : (pushElement (appendFrame0 (flushInner st) (.text [mChar])) 0 false).stack ≠ [] := by
    intro hnil
    rw [hnil] at hs2len
    have h0 := List.length_pos.mpr h
    simp at hs2len
    omega
  have hshow : addTextLineStep d st l
      = if l ≠ [] then
          appendTop (pushElement (appendFrame0 (flushInner st) (.text [mChar])) 0 false)
            (lineContent d l)
        else pushElement (appendFrame0 (flushInner st) (.text [mChar])) 0 false := rfl
  rw [hshow]
  split
  · constructor
    · rw [recon_appendTop (pushElement (appendFrame0 (flushInner st) (.text [mChar])) 0 false)
        (lineContent d l) hs2ne, c1, f1, lineContent_lineText]
      simp
    · rw [appendTop_stack_length, hs2len]
  · rename_i hl
    simp at hl
    subst hl
    exact ⟨by rw [c1, f1], hs2len⟩

theorem lineFold_recon (d : Bool) :
    ∀ (ls : List (List Char)) (st : RState), st.stack ≠ [] →
      reconState (ls.foldl (addTextLineStep d) st)
        = reconState st ++ (ls.map (fun l => '\n' :: l)).flatten
      ∧ (ls.foldl (addTextLineStep d) st).stack.length = st.stack.length := by
  intro ls
  induction ls with
  | nil => intro st h; exact ⟨by simp, rfl⟩
  | cons l ls ih =>
    intro st h
    obtain ⟨s1, s2⟩ := addTextLineStep_recon d st l h
    have hne : (addTextLineStep d st l).stack ≠ [] := by
      intro hnil
      rw [hnil] at s2
      have h0 := List.length_pos.mpr h
      simp at s2
      omega
    obtain ⟨r1, r2⟩ := ih (addTextLineStep d st l) hne
    constructor
    · show reconState (ls.foldl (addTextLineStep d) (addTextLineStep d st l)) = _
      rw [r1, s1]
      simp
    · show (ls.foldl (addTextLineStep d) (addTextLineStep d st l)).stack.length = _
      rw [r2, s2]

theorem addText_recon_nonempty (st : RState) (t : List Char) (d : Bool) (h : st.stack ≠ []) :
    reconState (addText st t d) = reconState st ++ t := by
  have hlen : st.stack.length ≠ 0 := by
    intro h0
    exact h (List.length_eq_zero.mp h0)
  have hne := splitNl_ne_nil t
  have hhead : reconState (if (splitNl t).headD [] ≠ [] then
        appendTop st (lineContent d ((splitNl t).headD [])) else st)
      = reconState st ++ (splitNl t).headD []
      ∧ (if (splitNl t).headD [] ≠ [] then
          appendTop st (lineContent d ((splitNl t).headD [])) else st).stack ≠ [] := by
    split
    · refine ⟨?_, ?_⟩
      · rw [recon_appendTop st (lineContent d ((splitNl t).headD [])) h, lineContent_lineText]
      · intro hnil
        have hl := appendTop_stack_length st (lineContent d ((splitNl t).headD []))
        rw [hnil] at hl
        have h0 := List.length_pos.mpr h
        simp at hl
        omega
    · rename_i hl
      simp only [ne_eq, not_not] at hl
      rw [hl]
      exact ⟨by simp, h⟩
  obtain ⟨h1, h2⟩ := hhead
  obtain ⟨r1, r2⟩ := lineFold_recon d ((splitNl t).drop 1) _ h2
  unfold addText
  dsimp only
  rw [if_pos hlen, recon_scan_set, r1, h1, List.append_assoc,
    show (splitNl t).headD [] ++ (((splitNl t).drop 1).map (fun l => '\n' :: l)).flatten = t
      from by rw [← joinNl_eq _ hne, joinNl_splitNl]]

theorem recon_addTextGapStep (st : RState) (l : List Char) (h : st.stack = []) :
    reconState (addTextGapStep st l) = reconState st ++ (l ++ ['\n'])
    ∧ (addTextGapStep st l).stack = []
    ∧ (addTextGapStep st l).block = El.create "div" := by
  unfold addTextGapStep
  dsimp only
  refine ⟨?_, ?_, ?_⟩
  · rw [recon_scan_set, recon_pushBlock]
    unfold reconState reconDone pendingText
    simp only []
    rw [blockRecon_appendChild, lineRecon_createLine, h]
    simp [ptF]
  · exact h
  · rfl

theorem gapFold_recon :
    ∀ (ls : List (List Char)) (st : RState), st.stack = [] →
      reconState (ls.foldl addTextGapStep st)
        = reconState st ++ (ls.map (fun l => l ++ ['\n'])).flatten
      ∧ (ls.foldl addTextGapStep st).stack = []
      ∧ ((ls.foldl addTextGapStep st).block = st.block
          ∨ (ls.foldl addTextGapStep st).block = El.create "div") := by
  intro ls
  induction ls with
  | nil => intro st h; exact ⟨by simp, h, Or.inl rfl⟩
  | cons l ls ih =>
    intro st h
    obtain ⟨g1, g2, g3⟩ := recon_addTextGapStep st l h
    obtain ⟨r1, r2, r3⟩ := ih (addTextGapStep st l) g2
    refine ⟨?_, r2, ?_⟩
    · show reconState (ls.foldl addTextGapStep (addTextGapStep st l)) = _
      rw [r1, g1]
      simp
    · rcases r3 with r3 | r3
      · right
        show (ls.foldl addTextGapStep (addTextGapStep st l)).block = El.create "div"
        rw [r3, g3]
      · right
        show (ls.foldl addTextGapStep (addTextGapStep st l)).block = El.create "div"
        exact r3

theorem addText_recon_empty (st : RState) (t : List Char) (d : Bool) (h : st.stack = []) :
    reconState (addText st t d)
      = reconState st ++ (((splitNl t).dropLast).map (fun l => l ++ ['\n'])).flatten
    ∧ (addText st t d).stack = []
    ∧ ((addText st t d).block = st.block ∨ (addText st t d).block = El.create "div") := by
  have hlen : ¬ st.stack.length ≠ 0 := by rw [h]; simp
  unfold addText
  dsimp only
  rw [if_neg hlen]
  exact gapFold_recon (splitNl t).dropLast st h

theorem addText_recon_slice (src : List Char) (st : RState) (b : Nat) (d : Bool)
    (h : st.stack ≠ []) (hrec : reconState st = src.take st.scanOffset) :
    reconState (addText st (jsSlice src st.scanOffset b) d)
      = src.take ((addText st (jsSlice src st.scanOffset b) d).scanOffset) := by
  rw [addText_recon_nonempty st (jsSlice src st.scanOffset b) d h, hrec,
    addText_scan_nonempty st (jsSlice src st.scanOffset b) d
      (by intro h0; exact h (List.length_eq_zero.mp h0)),
    take_append_slice]

theorem top_gap_addText (src : List Char) (st : RState) (b : Nat)
    (hstack : st.stack = []) (hrec : reconState st = src.take st.scanOffset) :
    reconState (addText st (jsSlice src st.scanOffset b) true)
      = src.take ((addText st (jsSlice src st.scanOffset b) true).scanOffset)
    ∧ (addText st (jsSlice src st.scanOffset b) true).scanOffset
        ≤ st.scanOffset + (jsSlice src st.scanOffset b).length
    ∧ (addText st (jsSlice src st.scanOffset b) true).stack = []
    ∧ ((addText st (jsSlice src st.scanOffset b) true).block = st.block
        ∨ (addText st (jsSlice src st.scanOffset b) true).block = El.create "div") := by
  obtain ⟨r1, r2, r3⟩ := addText_recon_empty st (jsSlice src st.scanOffset b) true hstack
  have hscan := addText_scan_empty st (jsSlice src st.scanOffset b) true
    (by rw [hstack]; rfl)
  have hsum := dropLast_map_sum_le (jsSlice src st.scanOffset b)
  refine ⟨?_, by omega, r2, r3⟩
  rw [r1, hrec, splitNl_consumed, hscan]
  exact take_slice_assemble src st.scanOffset _ b hsum

/-! ### Scan bounds under the range contract -/

theorem jsSlice_len_le (src : List Char) (a b : Nat) : (jsSlice src a b).length ≤ b - a := by
  unfold jsSlice
  exact List.length_take_le _ _

theorem addText_scan_exact (src : List Char) (st : RState) (e : Nat) (d : Bool)
    (h : st.stack.length ≠ 0) (h1 : st.scanOffset ≤ e) (h2 : e ≤ src.length) :
    (addText st (jsSlice src st.scanOffset e) d).scanOffset = e := by
  rw [addText_scan_nonempty st _ d h]
  unfold jsSlice
  rw [List.length_take, List.length_drop]
  omega

/-- The non-skip body of `processNode` keeps the scan offset within any
bound `e` that caps both the gap target `g` and the content emission. -/
theorem node_body_wf (src : List Char) (st : RState) (g e i : Nat) (node : MdastNode)
    (F : RState → RState)
    (hFlen : ∀ s : RState, (F s).stack.length = s.stack.length)
    (hFbound : ∀ s : RState, s.stack.length ≠ 0 → s.scanOffset ≤ e → (F s).scanOffset ≤ e)
    (h : st.stack.length ≠ 0) (hscan : st.scanOffset ≤ e) (hbe : g ≤ e) :
    (popFrame (closeNode i (F (pushFrame node
        (addText st (jsSlice src st.scanOffset g) true))))).scanOffset ≤ e := by
  have l0 : (addText st (jsSlice src st.scanOffset g) true).scanOffset ≤ e := by
    have h4 := addText_scan_le_add st (jsSlice src st.scanOffset g) true
    have h5 := jsSlice_len_le src st.scanOffset g
    omega
  have l1len : (addText st (jsSlice src st.scanOffset g) true).stack.length ≠ 0 := by
    rw [addText_stack_length]; exact h
  have l2 : (pushFrame node (addText st (jsSlice src st.scanOffset g) true)).scanOffset
      = (addText st (jsSlice src st.scanOffset g) true).scanOffset := rfl
  have l2len := pushFrame_stack_length node (addText st (jsSlice src st.scanOffset g) true)
  have l3 := hFbound (pushFrame node (addText st (jsSlice src st.scanOffset g) true))
    (by omega) (by rw [l2]; exact l0)
  have l3len := hFlen (pushFrame node (addText st (jsSlice src st.scanOffset g) true))
  have l4 := closeNode_scan_gt1 i
    (F (pushFrame node (addText st (jsSlice src st.scanOffset g) true))) (by omega)
  rw [popFrame_scan, l4]
  exact l3

mutual
theorem processNode_scan_wf (src : List Char) (n : MdastNode) (i : Nat) (st : RState)
    (b : Nat) (hwf : nodeWf b n) (h : st.stack.length ≠ 0) (hsc : st.scanOffset ≤ b) :
    (processNode src n i st).scanOffset ≤ b := by
  cases n with
  | leaf ty dp s e =>
    cases s with
    | none => simpa [processNode, MdastNode.startOffset, MdastNode.endOffset] using hsc
    | some s0 =>
      cases e with
      | none => simpa [processNode, MdastNode.startOffset, MdastNode.endOffset] using hsc
      | some e0 =>
        have he : e0 ≤ b := hwf
        unfold processNode
        simp only [MdastNode.startOffset, MdastNode.endOffset]
        split <;> split
        all_goals first
          | exact hsc
          | (rename_i h1 h2
             refine le_trans (node_body_wf src st _ e0 i _
               (fun s => addText s (jsSlice src s.scanOffset e0) false)
               (fun s => addText_stack_length s _ false)
               (fun s hs hsc2 => by
                 show (addText s (jsSlice src s.scanOffset e0) false).scanOffset ≤ e0
                 have h4 := addText_scan_le_add s (jsSlice src s.scanOffset e0) false
                 have h5 := jsSlice_len_le src s.scanOffset e0
                 omega)
               h (by omega) (by omega)) he)
  | parent ty dp s e cs =>
    cases s with
    | none => simpa [processNode, MdastNode.startOffset, MdastNode.endOffset] using hsc
    | some s0 =>
      cases e with
      | none => simpa [processNode, MdastNode.startOffset, MdastNode.endOffset] using hsc
      | some e0 =>
        have he : e0 ≤ b := hwf.1
        have hcs : nodesWf e0 cs := hwf.2
        unfold processNode
        simp only [MdastNode.startOffset, MdastNode.endOffset]
        split <;> split
        all_goals first
          | exact hsc
          | (rename_i h1 h2
             refine le_trans (node_body_wf src st _ e0 i _
               (fun s => addText (processNodes src cs 0 s)
                 (jsSlice src (processNodes src cs 0 s).scanOffset e0) true)
               (fun s => by rw [addText_stack_length, processNodes_stack_len])
               (fun s hs hsc2 => by
                 show (addText (processNodes src cs 0 s)
                     (jsSlice src (processNodes src cs 0 s).scanOffset e0) true).scanOffset ≤ e0
                 have h3 := processNodes_scan_wf src cs 0 s e0 hcs hs hsc2
                 have h4 := addText_scan_le_add (processNodes src cs 0 s)
                   (jsSlice src (processNodes src cs 0 s).scanOffset e0) true
                 have h5 := jsSlice_len_le src (processNodes src cs 0 s).scanOffset e0
                 omega)
               h (by omega) (by omega)) he)

theorem processNodes_scan_wf (src : List Char) (nodes : List MdastNode) (i : Nat)
    (st : RState) (b : Nat) (hwf : nodesWf b nodes) (h : st.stack.length ≠ 0)
    (hsc : st.scanOffset ≤ b) :
    (processNodes src nodes i st).scanOffset ≤ b := by
  cases nodes with
  | nil => simpa [processNodes] using hsc
  | cons n rest =>
    show (processNodes src rest (i + 1) (processNode src n i st)).scanOffset ≤ b
    have h1 : (processNode src n i st).stack.length ≠ 0 := by
      rw [processNode_stack_len]; exact h
    exact processNodes_scan_wf src rest (i + 1) (processNode src n i st) b hwf.2 h1
      (processNode_scan_wf src n i st b hwf.1 h hsc)
end

/-! ### Reconstruction through a nested node -/

/-- The non-skip body of `processNode` below the top level preserves the
invariant that the state represents exactly the scanned prefix. -/
theorem node_body_recon (src : List Char) (st : RState) (g i : Nat) (node : MdastNode)
    (F : RState → RState)
    (hFlen : ∀ s : RState, (F s).stack.length = s.stack.length)
    (hFrec : ∀ s : RState, s.stack ≠ [] → reconState s = src.take s.scanOffset →
      reconState (F s) = src.take (F s).scanOffset)
    (h : st.stack ≠ []) (hrec : reconState st = src.take st.scanOffset) :
    reconState (popFrame (closeNode i (F (pushFrame node
        (addText st (jsSlice src st.scanOffset g) true)))))
      = src.take ((popFrame (closeNode i (F (pushFrame node
          (addText st (jsSlice src st.scanOffset g) true))))).scanOffset) := by
  have hlen0 : 0 < st.stack.length := List.length_pos.mpr h
  have r1 : reconState (addText st (jsSlice src st.scanOffset g) true)
      = src.take (addText st (jsSlice src st.scanOffset g) true).scanOffset :=
    addText_recon_slice src st g true h hrec
  have l1 : (addText st (jsSlice src st.scanOffset g) true).stack.length
      = st.stack.length := addText_stack_length st _ true
  have r2 : reconState (pushFrame node (addText st (jsSlice src st.scanOffset g) true))
      = src.take (pushFrame node (addText st (jsSlice src st.scanOffset g) true)).scanOffset := by
    rw [recon_pushFrame, pushFrame_scan]
    exact r1
  have l2 : (pushFrame node (addText st (jsSlice src st.scanOffset g) true)).stack.length
      = st.stack.length + 1 := by
    rw [pushFrame_stack_length, l1]
  have hne2 : (pushFrame node (addText st (jsSlice src st.scanOffset g) true)).stack ≠ [] := by
    intro hnil
    rw [hnil] at l2
    simp at l2
  have r3 : reconState (F (pushFrame node (addText st (jsSlice src st.scanOffset g) true)))
      = src.take (F (pushFrame node (addText st (jsSlice src st.scanOffset g) true))).scanOffset :=
    hFrec _ hne2 r2
  have l3 : (F (pushFrame node (addText st (jsSlice src st.scanOffset g) true))).stack.length
      = st.stack.length + 1 := by
    rw [hFlen, l2]
  have hgt : 1 < (F (pushFrame node (addText st (jsSlice src st.scanOffset g) true))).stack.length := by
    omega
  have r4 : reconState (closeNode i (F (pushFrame node (addText st (jsSlice src st.scanOffset g) true))))
      = src.take (closeNode i (F (pushFrame node (addText st (jsSlice src st.scanOffset g) true)))).scanOffset := by
    rw [closeNode_recon_gt1 i _ hgt, closeNode_scan_gt1 i _ hgt]
    exact r3
  have l4 : (closeNode i (F (pushFrame node (addText st (jsSlice src st.scanOffset g) true)))).stack.length
      = st.stack.length + 1 := by
    rw [closeNode_stack_length, l3]
  have hne4 : (closeNode i (F (pushFrame node (addText st (jsSlice src st.scanOffset g) true)))).stack ≠ [] := by
    intro hnil
    rw [hnil] at l4
    simp at l4
  have hlast : ((closeNode i (F (pushFrame node (addText st (jsSlice src st.scanOffset g) true)))).fr
      ((closeNode i (F (pushFrame node (addText st (jsSlice src st.scanOffset g) true)))).stack.length - 1)).el.lineText
      = [] := by
    rw [l4]
    have hfl := closeNode_fr_last i (F (pushFrame node (addText st (jsSlice src st.scanOffset g) true))) hgt
    rw [show st.stack.length + 1 - 1
        = (F (pushFrame node (addText st (jsSlice src st.scanOffset g) true))).stack.length - 1
      from by omega, hfl, El.lineText_create]
  rw [popFrame_recon_of_last_empty _ hne4 hlast, popFrame_scan]
  exact r4

mutual
theorem processNode_recon (src : List Char) (n : MdastNode) (i : Nat) (st : RState)
    (h : st.stack ≠ []) (hrec : reconState st = src.take st.scanOffset) :
    reconState (processNode src n i st) = src.take (processNode src n i st).scanOffset := by
  cases n with
  | leaf ty dp s e =>
    cases s with
    | none => simpa [processNode, MdastNode.startOffset, MdastNode.endOffset] using hrec
    | some s0 =>
      cases e with
      | none => simpa [processNode, MdastNode.startOffset, MdastNode.endOffset] using hrec
      | some e0 =>
        unfold processNode
        simp only [MdastNode.startOffset, MdastNode.endOffset]
        split <;> split
        all_goals first
          | exact hrec
          | exact node_body_recon src st _ i _
              (fun s => addText s (jsSlice src s.scanOffset e0) false)
              (fun s => addText_stack_length s _ false)
              (fun s hs hr => addText_recon_slice src s e0 false hs hr)
              h hrec
  | parent ty dp s e cs =>
    cases s with
    | none => simpa [processNode, MdastNode.startOffset, MdastNode.endOffset] using hrec
    | some s0 =>
      cases e with
      | none => simpa [processNode, MdastNode.startOffset, MdastNode.endOffset] using hrec
      | some e0 =>
        unfold processNode
        simp only [MdastNode.startOffset, MdastNode.endOffset]
        split <;> split
        all_goals first
          | exact hrec
          | exact node_body_recon src st _ i _
              (fun s => addText (processNodes src cs 0 s)
                (jsSlice src (processNodes src cs 0 s).scanOffset e0) true)
              (fun s => by rw [addText_stack_length, processNodes_stack_len])
              (fun s hs hr => by
                show reconState (addText (processNodes src cs 0 s)
                    (jsSlice src (processNodes src cs 0 s).scanOffset e0) true)
                  = src.take ((addText (processNodes src cs 0 s)
                      (jsSlice src (processNodes src cs 0 s).scanOffset e0) true).scanOffset)
                have hlen := processNodes_stack_len src cs 0 s
                have hne : (processNodes src cs 0 s).stack ≠ [] := by
                  intro hnil
                  rw [hnil] at hlen
                  have h0 := List.length_pos.mpr hs
                  simp at hlen
                  omega
                exact addText_recon_slice src (processNodes src cs 0 s) e0 true hne
                  (processNodes_recon src cs 0 s hs hr))
              h hrec

theorem processNodes_recon (src : List Char) (nodes : List MdastNode) (i : Nat)
    (st : RState) (h : st.stack ≠ []) (hrec : reconState st = src.take st.scanOffset) :
    reconState (processNodes src nodes i st)
      = src.take (processNodes src nodes i st).scanOffset := by
  cases nodes with
  | nil => simpa [processNodes] using hrec
  | cons n rest =>
    show reconState (processNodes src rest (i + 1) (processNode src n i st)) = _
    have h1 : (processNode src n i st).stack ≠ [] := by
      intro hnil
      have hl := processNode_stack_len src n i st
      rw [hnil] at hl
      have h0 := List.length_pos.mpr h
      simp at hl
      omega
    exact processNodes_recon src rest (i + 1) (processNode src n i st) h1
      (processNode_recon src n i st h hrec)
end

/-! ### The top-level fidelity invariant -/

/-- The non-skip body of `processNode` at the top level (empty starting
stack) preserves the fidelity invariant: the block end consumes the
node-terminating line break (or steps one past the end of the source). -/
theorem node_body_topInv (src : List Char) (st : RState) (g e0 i : Nat) (node : MdastNode)
    (F : RState → RState)
    (hFlen : ∀ s : RState, (F s).stack.length = s.stack.length)
    (hFrec : ∀ s : RState, s.stack ≠ [] → reconState s = src.take s.scanOffset →
      reconState (F s) = src.take (F s).scanOffset)
    (hFexact : ∀ s : RState, s.stack.length ≠ 0 → s.scanOffset ≤ e0 → (F s).scanOffset = e0)
    (hstack : st.stack = [])
    (hrec : reconState st = src.take st.scanOffset)
    (hsg : st.scanOffset ≤ g) (hge : g < e0)
    (hble : e0 = src.length ∨ src.getD e0 ' ' = '\n') :
    topInv src (popFrame (closeNode i (F (pushFrame node
        (addText st (jsSlice src st.scanOffset g) true))))) := by
  obtain ⟨r1, r1le, r1stack, r1block⟩ := top_gap_addText src st g hstack hrec
  have hscan1 : (addText st (jsSlice src st.scanOffset g) true).scanOffset ≤ e0 := by
    have h5 := jsSlice_len_le src st.scanOffset g
    omega
  have r2 : reconState (pushFrame node (addText st (jsSlice src st.scanOffset g) true))
      = src.take (pushFrame node (addText st (jsSlice src st.scanOffset g) true)).scanOffset := by
    rw [recon_pushFrame, pushFrame_scan]
    exact r1
  have l2 : (pushFrame node (addText st (jsSlice src st.scanOffset g) true)).stack.length = 1 := by
    rw [pushFrame_stack_length, r1stack]
    rfl
  have hne2 : (pushFrame node (addText st (jsSlice src st.scanOffset g) true)).stack ≠ [] := by
    intro hnil
    rw [hnil] at l2
    simp at l2
  have r3 := hFrec _ hne2 r2
  have hscan3 : (F (pushFrame node (addText st (jsSlice src st.scanOffset g) true))).scanOffset
      = e0 :=
    hFexact _ (by omega) (by rw [pushFrame_scan]; exact hscan1)
  have l3 : (F (pushFrame node (addText st (jsSlice src st.scanOffset g) true))).stack.length
      = 1 := by
    rw [hFlen]
    exact l2
  obtain ⟨c1, c2, c3, c4⟩ := closeNode_recon_eq1 i
    (F (pushFrame node (addText st (jsSlice src st.scanOffset g) true))) l3
  obtain ⟨f, hf⟩ := List.length_eq_one.mp l3
  refine ⟨?_, ?_, ?_⟩
  · show (closeNode i (F (pushFrame node
        (addText st (jsSlice src st.scanOffset g) true)))).stack.dropLast = []
    rw [c2, hf]
    rfl
  · show (closeNode i (F (pushFrame node
        (addText st (jsSlice src st.scanOffset g) true)))).block.children = []
    rw [c3]
    rfl
  · have hrecPop : reconState (popFrame (closeNode i (F (pushFrame node
        (addText st (jsSlice src st.scanOffset g) true)))))
        = reconState (closeNode i (F (pushFrame node
            (addText st (jsSlice src st.scanOffset g) true)))) := by
      apply popFrame_recon_of_last_empty
      · intro hnil
        have hl : (closeNode i (F (pushFrame node
            (addText st (jsSlice src st.scanOffset g) true)))).stack.length = 1 := by
          rw [closeNode_stack_length]
          exact l3
        rw [hnil] at hl
        simp at hl
      · show ((closeNode i (F (pushFrame node
            (addText st (jsSlice src st.scanOffset g) true)))).stack.getD
            ((closeNode i (F (pushFrame node
              (addText st (jsSlice src st.scanOffset g) true)))).stack.length - 1)
            default).el.lineText = []
        rw [c2, hf]
        simp [El.lineText_create]
    rw [hrecPop, popFrame_scan, c1, c4, r3, hscan3]
    rcases hble with hE | hE
    · right
      refine ⟨by omega, ?_⟩
      rw [hE, List.take_length]
    · left
      have hlt : e0 < src.length := by
        by_contra hc
        push_neg at hc
        rw [List.getD_eq_default _ _ hc] at hE
        exact absurd hE (by decide)
      refine ⟨by omega, ?_⟩
      rw [take_succ_getD src e0 ' ' hlt, hE]

theorem processNode_topInv (src : List Char) (n : MdastNode) (i : Nat) (st : RState)
    (hwf : nodeWf src.length n) (hend : blockEndNl src n) (hinv : topInv src st) :
    topInv src (processNode src n i st) := by
  obtain ⟨hstack, hblock, hdisj⟩ := hinv
  cases n with
  | leaf ty dp s e =>
    cases s with
    | none => exact ⟨hstack, hblock, hdisj⟩
    | some s0 =>
      cases e with
      | none => exact ⟨hstack, hblock, hdisj⟩
      | some e0 =>
        have he : e0 ≤ src.length := hwf
        have hbe : e0 = src.length ∨ src.getD e0 ' ' = '\n' := hend e0 rfl
        unfold processNode
        simp only [MdastNode.startOffset, MdastNode.endOffset]
        split <;> split
        all_goals first
          | exact ⟨hstack, hblock, hdisj⟩
          | (rename_i h1 h2
             rcases hdisj with ⟨hsc, hrec⟩ | ⟨hsc, hrec⟩
             · exact node_body_topInv src st _ e0 i _
                 (fun s => addText s (jsSlice src s.scanOffset e0) false)
                 (fun s => addText_stack_length s _ false)
                 (fun s hs hr => addText_recon_slice src s e0 false hs hr)
                 (fun s hs hsc2 => addText_scan_exact src s e0 false hs hsc2 he)
                 hstack hrec (by omega) (by omega) hbe
             · exact (h2 (by omega)).elim)
  | parent ty dp s e cs =>
    cases s with
    | none => exact ⟨hstack, hblock, hdisj⟩
    | some s0 =>
      cases e with
      | none => exact ⟨hstack, hblock, hdisj⟩
      | some e0 =>
        have he : e0 ≤ src.length := hwf.1
        have hcs : nodesWf e0 cs := hwf.2
        have hbe : e0 = src.length ∨ src.getD e0 ' ' = '\n' := hend e0 rfl
        unfold processNode
        simp only [MdastNode.startOffset, MdastNode.endOffset]
        split <;> split
        all_goals first
          | exact ⟨hstack, hblock, hdisj⟩
          | (rename_i h1 h2
             rcases hdisj with ⟨hsc, hrec⟩ | ⟨hsc, hrec⟩
             · exact node_body_topInv src st _ e0 i _
                 (fun s => addText (processNodes src cs 0 s)
                   (jsSlice src (processNodes src cs 0 s).scanOffset e0) true)
                 (fun s => by rw [addText_stack_length, processNodes_stack_len])
                 (fun s hs hr => by
                   show reconState (addText (processNodes src cs 0 s)
                       (jsSlice src (processNodes src cs 0 s).scanOffset e0) true)
                     = src.take ((addText (processNodes src cs 0 s)
                         (jsSlice src (processNodes src cs 0 s).scanOffset e0) true).scanOffset)
                   have hlen := processNodes_stack_len src cs 0 s
                   have hne : (processNodes src cs 0 s).stack ≠ [] := by
                     intro hnil
                     rw [hnil] at hlen
                     have h0 := List.length_pos.mpr hs
                     simp at hlen
                     omega
                   exact addText_recon_slice src (processNodes src cs 0 s) e0 true hne
                     (processNodes_recon src cs 0 s hs hr))
                 (fun s hs hsc2 => by
                   show (addText (processNodes src cs 0 s)
                       (jsSlice src (processNodes src cs 0 s).scanOffset e0) true).scanOffset = e0
                   have h3 := processNodes_scan_wf src cs 0 s e0 hcs hs hsc2
                   have hlen := processNodes_stack_len src cs 0 s
                   exact addText_scan_exact src (processNodes src cs 0 s) e0 true
                     (by rw [hlen]; exact hs) h3 he)
                 hstack hrec (by omega) (by omega) hbe
             · exact (h2 (by omega)).elim)

theorem processNodes_topInv (src : List Char) :
    ∀ (nodes : List MdastNode) (i : Nat) (st : RState),
      nodesWf src.length nodes → (∀ n ∈ nodes, blockEndNl src n) → topInv src st →
      topInv src (processNodes src nodes i st) := by
  intro nodes
  induction nodes with
  | nil => intro i st _ _ h; simpa [processNodes] using h
  | cons n rest ih =>
    intro i st hwf hend h
    show topInv src (processNodes src rest (i + 1) (processNode src n i st))
    exact ih (i + 1) _ hwf.2 (fun m hm => hend m (by simp [hm]))
      (processNode_topInv src n i st hwf.1 (hend n (by simp)) h)

theorem editorRenderState_recon (src : List Char) (tree : List MdastNode)
    (h : treeOk src tree) :
    reconState (editorRenderState src tree) = src ++ ['\n']
    ∧ (editorRenderState src tree).stack = []
    ∧ (editorRenderState src tree).block.children = [] := by
  obtain ⟨hwf, hend⟩ := h
  have h0 : topInv src initState := by
    refine ⟨rfl, rfl, Or.inl ⟨Nat.zero_le _, ?_⟩⟩
    rw [show (initState : RState).scanOffset = 0 from rfl, List.take_zero]
    rfl
  obtain ⟨s1stack, s1block, s1disj⟩ := processNodes_topInv src tree 0 initState hwf hend h0
  rcases s1disj with ⟨hsc, hrec⟩ | ⟨hsc, hrec⟩
  · obtain ⟨r1, r1le, r1stack, r1block⟩ := top_gap_addText src
      (processNodes src tree 0 initState) src.length s1stack hrec
    have r1len : (addText (processNodes src tree 0 initState)
        (jsSlice src (processNodes src tree 0 initState).scanOffset src.length)
        true).scanOffset ≤ src.length := by
      have h5 := jsSlice_len_le src (processNodes src tree 0 initState).scanOffset src.length
      omega
    unfold editorRenderState getChildren
    dsimp only
    rw [if_pos r1len]
    refine ⟨?_, ?_, ?_⟩
    · rw [recon_pushBlock]
      unfold reconState reconDone pendingText
      simp only []
      rw [blockRecon_appendChild, lineRecon_createLine, r1stack]
      have r1u := r1
      unfold reconState reconDone pendingText at r1u
      rw [r1stack] at r1u
      simp only [ptF, List.map_nil, List.flatten_nil, List.append_nil] at r1u ⊢
      rw [← List.append_assoc, r1u, ← List.append_assoc, List.take_append_drop]
    · exact r1stack
    · rfl
  · have hnil : jsSlice src (processNodes src tree 0 initState).scanOffset src.length = [] :=
      jsSlice_eq_nil src _ _ (by omega)
    unfold editorRenderState getChildren
    dsimp only
    rw [hnil, addText_nil]
    rw [if_neg (by omega)]
    exact ⟨hrec, s1stack, s1block⟩

/-- C1, amended.  For every source text `S` and parsed tree satisfying
the input contract (`nodesWf`: every node's end offset is bounded by its
parent's end offset, top level by `|S|`) whose top-level nodes end
either at `|S|` or at a line break (`blockEndNl`, as the real markdown
parser guarantees), concatenating in document order every literal and
delimiter text fragment of the rendered DOM tree together with one
consumed line-break placeholder per finalized line (ignoring the
injected zero-width markers and index attributes), and dropping the
final placeholder (`reconstruct`), yields `S` exactly. -/
theorem c1_amended (src : List Char) (tree : List MdastNode) (h : treeOk src tree) :
    reconstruct (editorRender src tree) = src := by
  obtain ⟨r1, r2, r3⟩ := editorRenderState_recon src tree h
  have hb : blockRecon (editorRenderState src tree).block = [] := by
    unfold blockRecon
    rw [r3]
    rfl
  have e : (((editorRenderState src tree).root.map blockRecon).flatten) = src ++ ['\n'] := by
    have r1u := r1
    unfold reconState reconDone pendingText at r1u
    rw [hb, r2] at r1u
    simpa [ptF] using r1u
  show ((((editorRenderState src tree).root.map Dom.elem).map blockReconD).flatten).dropLast = src
  rw [List.map_map, show blockReconD ∘ Dom.elem = blockRecon from funext fun b => rfl, e,
    List.dropLast_concat]

/-- Witness for the amended C1 theorem at the two-paragraph source
`"para1\n\npara2"` with its parsed tree: the hypotheses hold and the
render reconstructs the source exactly. -/
theorem c1_amended_witness :
    reconstruct (editorRender ("para1\n\npara2".toList)
        [.parent "paragraph" 0 (some 0) (some 5) [.leaf "text" 0 (some 0) (some 5)],
         .parent "paragraph" 0 (some 7) (some 12) [.leaf "text" 0 (some 7) (some 12)]])
      = "para1\n\npara2".toList :=
  c1_amended _ _ (by
    refine ⟨?_, ?_⟩
    · simp only [nodesWf, nodeWf]
      refine ⟨⟨by decide, by decide, trivial⟩, ⟨by decide, by decide, trivial⟩, trivial⟩
    · intro n hn
      simp only [List.mem_cons, List.not_mem_nil, or_false] at hn
      rcases hn with h | h <;> subst h <;> intro e he <;>
        simp only [MdastNode.endOffset, Option.some.injEq] at he <;> subst he <;> decide)

/-- C1, counterexample.  The claim quantifies over every source text and
parsed tree.  For `S = "ab"` and the tree consisting of one paragraph
with range `[0, 1)` — a tree satisfying the stated input contract
(`0 ≤ start ≤ end ≤ |S|`, nested children, monotone siblings) — the
block end consumes the character `'b'` at offset 1 as if it were a line
break, so the concatenation of the emitted fragments and consumed
line-break placeholders is `"a\n"`, not `"ab"`: the reconstruction
property fails. -/
theorem c1_counterexample :
    reconstruct (editorRender ['a', 'b']
        [.parent "paragraph" 0 (some 0) (some 1) [.leaf "text" 0 (some 0) (some 1)]])
      ≠ ['a', 'b'] := by decide

/-- C2, counterexample.  For `S = "a"` with its paragraph tree, the block
end increments `scanOffset` past the end of the source: the final scan
offset is 2 while `S.length = 1`, so `scanOffset` does exceed the length
of the source text (this is exactly why the final trailing-block guard
in `editorRender` tests `scanOffset <= sourceCode.length` rather than
`<`). -/
theorem c2_counterexample :
    (editorRenderState ['a']
        [.parent "paragraph" 0 (some 0) (some 1) [.leaf "text" 0 (some 0) (some 1)]]).scanOffset
      > (['a'] : List Char).length := by decide

/-- C3.  `editorRender` raises no exception for any input (in this
embedding every operation is a total function); the defensive conditions
are handled by silent skip/clamp: (a) a node missing a start or end
offset contributes nothing — `processNode` is the identity on the state;
(b) traversal always continues with the remaining siblings; (c) a start
offset below the current scan offset is clamped up to the scan offset
exactly as in the source (`startOffset < scanOffset → startOffset :=
scanOffset`), the delimiter gap emitted after clamping is the empty
slice (nothing already emitted is re-emitted), emitting the empty slice
leaves the state unchanged, and the scan offset never moves backward;
(d) a node whose clamped start reaches its end is skipped. -/
theorem c3_defensive :
    (∀ (src : List Char) (n : MdastNode) (i : Nat) (st : RState),
        n.startOffset = none ∨ n.endOffset = none → processNode src n i st = st)
      ∧ (∀ (src : List Char) (n : MdastNode) (rest : List MdastNode) (i : Nat) (st : RState),
          processNodes src (n :: rest) i st
            = processNodes src rest (i + 1) (processNode src n i st))
      ∧ (∀ s0 scan : Nat, s0 < scan → (if s0 < scan then scan else s0) = scan)
      ∧ (∀ (src : List Char) (a b : Nat), b ≤ a → jsSlice src a b = [])
      ∧ (∀ (st : RState) (d : Bool), addText st [] d = st)
      ∧ (∀ (src : List Char) (n : MdastNode) (i : Nat) (st : RState),
          st.scanOffset ≤ (processNode src n i st).scanOffset)
      ∧ (∀ (src : List Char) (n : MdastNode) (i : Nat) (st : RState) (s0 e0 : Nat),
          n.startOffset = some s0 → n.endOffset = some e0 →
          e0 ≤ (if s0 < st.scanOffset then st.scanOffset else s0) →
          processNode src n i st = st) := by
  refine ⟨?_, ?_, ?_, ?_, addText_nil, processNode_scan_mono, ?_⟩
  · intro src n i st h
    cases n with
    | leaf ty dp s e =>
      rcases h with h | h
      · simp only [MdastNode.startOffset] at h
        subst h
        simp [processNode, MdastNode.startOffset, MdastNode.endOffset]
      · simp only [MdastNode.endOffset] at h
        subst h
        cases s <;> simp [processNode, MdastNode.startOffset, MdastNode.endOffset]
    | parent ty dp s e cs =>
      rcases h with h | h
      · simp only [MdastNode.startOffset] at h
        subst h
        simp [processNode, MdastNode.startOffset, MdastNode.endOffset]
      · simp only [MdastNode.endOffset] at h
        subst h
        cases s <;> simp [processNode, MdastNode.startOffset, MdastNode.endOffset]
  · intro src n rest i st
    rfl
  · intro s0 scan h
    simp [h]
  · intro src a b h
    have : b - a = 0 := by omega
    simp [jsSlice, this]
  · intro src n i st s0 e0 hs he hle
    have hle' : e0 ≤ max s0 st.scanOffset := by
      split at hle <;> omega
    cases n with
    | leaf ty dp s e =>
      simp only [MdastNode.startOffset] at hs
      simp only [MdastNode.endOffset] at he
      subst hs; subst he
      unfold processNode
      simp only [MdastNode.startOffset, MdastNode.endOffset]
      split <;> split
      all_goals first
        | rfl
        | (rename_i h1 h2; omega)
    | parent ty dp s e cs =>
      simp only [MdastNode.startOffset] at hs
      simp only [MdastNode.endOffset] at he
      subst hs; subst he
      unfold processNode
      simp only [MdastNode.startOffset, MdastNode.endOffset]
      split <;> split
      all_goals first
        | rfl
        | (rename_i h1 h2; omega)

/-- C3, witness: the skip equations at concrete inputs. -/
theorem c3_defensive_witness :
    processNode ['a'] (.leaf "text" 0 none (some 1)) 0 initState = initState
      ∧ processNode ['a'] (.leaf "text" 0 (some 0) (some 0)) 0 initState = initState
      ∧ jsSlice ['a'] 1 0 = [] :=
  ⟨c3_defensive.1 ['a'] (.leaf "text" 0 none (some 1)) 0 initState (Or.inl rfl),
   c3_defensive.2.2.2.2.2.2 ['a'] (.leaf "text" 0 (some 0) (some 0)) 0 initState 0 0
     rfl rfl (by omega),
   c3_defensive.2.2.2.1 ['a'] 1 0 (by omega)⟩

/-- C4.  For every input — any source text and any parsed tree — the
output of `editorRender` contains at least one block container; and for
the empty source text with its (empty) parsed tree the result is a root
with exactly one block containing exactly one line whose only content is
the zero-width boundary marker. -/
theorem c4_terminal_block :
    (∀ (src : List Char) (tree : List MdastNode),
        1 ≤ (editorRender src tree).children.length)
      ∧ editorRender [] []
          = El.mk "div" [] []
              [.elem (El.mk "div" [classNamePrefix ++ "block"] []
                [.elem (El.mk "div" [] [] [.text [mChar]])])] := by
  constructor
  · intro src tree
    have h := editorRenderState_root_ne src tree
    show 1 ≤ (El.mk "div" [] [] ((editorRenderState src tree).root.map Dom.elem)).children.length
    simp only [El.children, List.length_map]
    exact Nat.pos_of_ne_zero (fun hc => h (List.length_eq_zero.mp hc))
  · rfl

/-- C6, amended.  Every direct child of the root is a `div` block
container carrying the class `"<prefix>block"` (proved for all inputs).
However, only a block finalized at the end of a top-level parsed node
carries an `index` attribute (equal to that node's position among the
parsed tree's children); blocks created for blank-line gaps between
blocks and for trailing text carry no `index` attribute, as the
two-paragraph scenario shows: its three blocks carry the attribute lists
`[("index", "0")]`, `[]`, `[("index", "1")]` in root order. -/
theorem c6_amended :
    (∀ (src : List Char) (tree : List MdastNode) (b : El),
        Dom.elem b ∈ (editorRender src tree).children →
          b.tag = "div" ∧ (classNamePrefix ++ "block") ∈ b.classes)
      ∧ ((editorRender ("para1\n\npara2".toList)
            [.parent "paragraph" 0 (some 0) (some 5) [.leaf "text" 0 (some 0) (some 5)],
             .parent "paragraph" 0 (some 7) (some 12)
               [.leaf "text" 0 (some 7) (some 12)]]).children.map domAttrs)
          = [[("index", "0")], [], [("index", "1")]] := by
  constructor
  · intro src tree b hb
    have h := editorRenderState_blocksOk src tree
    have hb' : b ∈ (editorRenderState src tree).root := by
      simp only [editorRender, El.children, List.mem_map] at hb
      obtain ⟨a, ha, hae⟩ := hb
      injection hae with h2
      subst h2
      exact ha
    exact h.1 b hb'
  · decide

/-- C6, witness for the amended universal part. -/
theorem c6_amended_witness :
    (El.mk "div" [classNamePrefix ++ "block"] []
        [Dom.elem (El.mk "div" [] [] [Dom.text [mChar]])]).tag = "div"
      ∧ (classNamePrefix ++ "block")
          ∈ (El.mk "div" [classNamePrefix ++ "block"] []
              [Dom.elem (El.mk "div" [] [] [Dom.text [mChar]])]).classes :=
  c6_amended.1 [] []
    (El.mk "div" [classNamePrefix ++ "block"] []
      [Dom.elem (El.mk "div" [] [] [Dom.text [mChar]])])
    (List.Mem.head _)

/-- C2, amended.  The scan offset is monotonically non-decreasing at
every update of a pass (no core operation ever decreases it), and —
provided every top-level node's end offset is at most `S.length`, which
the parser contract guarantees — the scan offset never exceeds
`S.length + 1` at any point of the top-level walk (stated for every
prefix of the sibling loop) nor in the final state.  The original bound
`S.length` is off by one: the block-end consumption of the final
block's terminating line break may push the offset exactly one past the
end of the source. -/
theorem c2_amended :
    (∀ (st : RState) (t : List Char) (d : Bool),
        st.scanOffset ≤ (addText st t d).scanOffset)
      ∧ (∀ (st : RState) (i : Nat) (l : Bool),
          (pushElement st i l).scanOffset = st.scanOffset)
      ∧ (∀ (src : List Char) (n : MdastNode) (i : Nat) (st : RState),
          st.scanOffset ≤ (processNode src n i st).scanOffset)
      ∧ (∀ (src : List Char) (nodes : List MdastNode) (p : Nat) (st : RState),
          st.scanOffset ≤ (getChildren src nodes p st).scanOffset)
      ∧ (∀ (src : List Char) (tree t1 t2 : List MdastNode), tree = t1 ++ t2 →
          (∀ n ∈ tree, ∀ e, n.endOffset = some e → e ≤ src.length) →
          (processNodes src t1 0 initState).scanOffset ≤ src.length + 1)
      ∧ (∀ (src : List Char) (tree : List MdastNode),
          (∀ n ∈ tree, ∀ e, n.endOffset = some e → e ≤ src.length) →
          (editorRenderState src tree).scanOffset ≤ src.length + 1) := by
  refine ⟨addText_scan_le, pushElement_scan, processNode_scan_mono,
    getChildren_scan_mono, ?_, editorRenderState_scan_bound⟩
  intro src tree t1 t2 hsplit hend
  exact (processNodes_top_bound src t1 0 initState rfl
    (fun n hn e he => hend n (by rw [hsplit]; exact List.mem_append_left t2 hn) e he)
    (Nat.zero_le _)).1

/-- C2, witness: the bound conjuncts applied at `S = "a"` with its
paragraph tree. -/
theorem c2_amended_witness :
    (editorRenderState ['a']
        [.parent "paragraph" 0 (some 0) (some 1) [.leaf "text" 0 (some 0) (some 1)]]).scanOffset
      ≤ (['a'] : List Char).length + 1 :=
  c2_amended.2.2.2.2.2 ['a']
    [.parent "paragraph" 0 (some 0) (some 1) [.leaf "text" 0 (some 0) (some 1)]]
    (by
      intro n hn e he
      simp only [List.mem_singleton] at hn
      subst hn
      simp only [MdastNode.endOffset, Option.some.injEq] at he
      simp [← he])

/-- C5, counterexample.  For `S = "para1\n\npara2"` parsed as two
paragraphs (ranges `[0, 5)` and `[7, 12)`), the root has three blocks,
not two: the blank line between the paragraphs becomes its own block. -/
theorem c5_counterexample :
    (editorRender ("para1\n\npara2".toList)
        [.parent "paragraph" 0 (some 0) (some 5) [.leaf "text" 0 (some 0) (some 5)],
         .parent "paragraph" 0 (some 7) (some 12) [.leaf "text" 0 (some 7) (some 12)]]).children.length
      ≠ 2 := by decide

/-- C5, amended.  For `S = "para1\n\npara2"` parsed as two paragraphs,
the root has exactly three blocks: the block with index attribute `"0"`
holds one line with text `"para1"` plus the boundary marker, the middle
block (no index attribute) holds one empty line (marker only) for the
blank source line, and the block with index attribute `"1"` holds one
line with text `"para2"` plus the boundary marker. -/
theorem c5_amended :
    editorRender ("para1\n\npara2".toList)
        [.parent "paragraph" 0 (some 0) (some 5) [.leaf "text" 0 (some 0) (some 5)],
         .parent "paragraph" 0 (some 7) (some 12) [.leaf "text" 0 (some 7) (some 12)]]
      = El.mk "div" [] []
          [.elem (El.mk "div" [classNamePrefix ++ "block"] [("index", "0")]
            [.elem (El.mk "div" [classNamePrefix ++ "paragraph"] []
              [.elem (El.mk "span" [classNamePrefix ++ "text"] [] [.text "para1".toList]),
               .text [mChar]])]),
           .elem (El.mk "div" [classNamePrefix ++ "block"] []
            [.elem (El.mk "div" [] [] [.text [mChar]])]),
           .elem (El.mk "div" [classNamePrefix ++ "block"] [("index", "1")]
            [.elem (El.mk "div" [classNamePrefix ++ "paragraph"] []
              [.elem (El.mk "span" [classNamePrefix ++ "text"] [] [.text "para2".toList]),
               .text [mChar]])])] := by rfl

/-- C6, counterexample.  The claim asserts that each block child of the
root carries an index attribute equal to its position among the parsed
tree's block-level children.  For `S = "para1\n\npara2"` with its
two-paragraph tree, the root's second block (the blank-line block)
carries no attributes at all, and the root's third block carries index
`"1"`, not `"2"`. -/
theorem c6_counterexample :
    ((editorRender ("para1\n\npara2".toList)
        [.parent "paragraph" 0 (some 0) (some 5) [.leaf "text" 0 (some 0) (some 5)],
         .parent "paragraph" 0 (some 7) (some 12) [.leaf "text" 0 (some 7) (some 12)]]).children.map
      domAttrs)
      = [[("index", "0")], [], [("index", "1")]] := by decide

/-- C7, counterexample.  An opaque node spanning exactly two lines does
not, in general, produce two *sibling* elements carrying the
`first`/`last` markers: for an inline `html` node inside a paragraph
(`S = "a<b\nc>d"`, html range `[1, 6)`), the two marked per-line
elements live in two different line containers, so no element of the
output has a `first`-marked child and a `last`-marked child side by
side. -/
theorem c7_counterexample :
    El.hasFLSiblings (editorRender ("a<b\nc>d".toList)
        [.parent "paragraph" 0 (some 0) (some 7)
          [.leaf "text" 0 (some 0) (some 1),
           .leaf "html" 0 (some 1) (some 6),
           .leaf "text" 0 (some 6) (some 7)]])
      = false := by decide

/-- C7, amended.  A *top-level* parsed node of an opaque type whose range
spans exactly two source lines produces two sibling per-line elements
(adjacent children of the same block), both carrying the node's
type-derived class, the first additionally carrying the `first` marker
and the second the `last` marker (proved parametrically in the two line
contents); and a node of a non-opaque type never receives the
`first`/`last` markers — its style classes are exactly the type class
plus, for headings, the depth class.  For an opaque node nested inside
inline content, the two per-line elements lie in consecutive line
containers rather than as siblings (see the counterexample). -/
theorem c7_amended :
    (∀ (a b : List Char), '\n' ∉ a → '\n' ∉ b → a ≠ [] → b ≠ [] →
      editorRender (a ++ '\n' :: b)
          [.leaf "html" 0 (some 0) (some (a ++ '\n' :: b).length)]
        = El.mk "div" [] []
            [.elem (El.mk "div" [classNamePrefix ++ "block"] [("index", "0")]
              [.elem (El.mk "div" [classNamePrefix ++ "html", classNamePrefix ++ "first"] []
                [.text a, .text [mChar]]),
               .elem (El.mk "div" [classNamePrefix ++ "html", classNamePrefix ++ "last"] []
                [.text b, .text [mChar]])])])
      ∧ (∀ (node : MdastNode) (first last : Bool),
          ¬ (node.ty = "html" ∨ node.ty = "code" ∨ node.ty = "math") →
          styleClasses node first last
            = [classNamePrefix ++ node.ty]
                ++ (if node.ty = "heading" then
                      [classNamePrefix ++ "heading" ++ toString node.depth]
                    else [])) := by
  constructor
  · intro a b ha hb hane hbne
    have h1 : splitNl (a ++ '\n' :: b) = [a, b] := by
      rw [splitNl_append_nl a b ha, splitNl_no_nl b hb]
    have e3 : addText ⟨0, [⟨.leaf "html" 0 (some 0) (some (a ++ '\n' :: b).length),
          El.create "div", true⟩], El.create "div", []⟩ (a ++ '\n' :: b) false
        = ⟨(a ++ '\n' :: b).length,
           [⟨.leaf "html" 0 (some 0) (some (a ++ '\n' :: b).length),
             El.mk "div" [] [] [.text b], false⟩],
           El.mk "div" [] []
             [.elem (El.mk "div" [classNamePrefix ++ "html", classNamePrefix ++ "first"] []
               [.text a, .text [mChar]])], []⟩ := by
      simp [addText, h1, hane, hbne, addTextLineStep, flushInner, pushElement, appendTop,
        appendFrame0, RState.fr, RState.setFr, styleIndex, styleClasses, isFlowContent,
        lineContent, El.addClasses, El.addClass, El.appendChild, El.create, MdastNode.ty,
        classNamePrefix]
    have e4 : closeNode 0 (⟨(a ++ '\n' :: b).length,
          [⟨.leaf "html" 0 (some 0) (some (a ++ '\n' :: b).length),
            El.mk "div" [] [] [.text b], false⟩],
          El.mk "div" [] []
            [.elem (El.mk "div" [classNamePrefix ++ "html", classNamePrefix ++ "first"] []
              [.text a, .text [mChar]])], []⟩ : RState)
        = ⟨(a ++ '\n' :: b).length + 1,
           [⟨.leaf "html" 0 (some 0) (some (a ++ '\n' :: b).length), El.create "div", false⟩],
           El.create "div",
           [El.mk "div" [classNamePrefix ++ "block"] [("index", "0")]
             [.elem (El.mk "div" [classNamePrefix ++ "html", classNamePrefix ++ "first"] []
               [.text a, .text [mChar]]),
              .elem (El.mk "div" [classNamePrefix ++ "html", classNamePrefix ++ "last"] []
                [.text b, .text [mChar]])]]⟩ := by
      simp [closeNode, appendFrame0, pushElement, pushBlock, RState.fr, RState.setFr,
        styleIndex, styleClasses, isFlowContent, El.addClasses, El.addClass, El.appendChild,
        El.setAttr, El.create, MdastNode.ty, MdastNode.depth, classNamePrefix,
        show toString (0 : Nat) = "0" from rfl]
    have eNode : processNode (a ++ '\n' :: b)
        (.leaf "html" 0 (some 0) (some (a ++ '\n' :: b).length)) 0 initState
        = ⟨(a ++ '\n' :: b).length + 1, [], El.create "div",
           [El.mk "div" [classNamePrefix ++ "block"] [("index", "0")]
             [.elem (El.mk "div" [classNamePrefix ++ "html", classNamePrefix ++ "first"] []
               [.text a, .text [mChar]]),
              .elem (El.mk "div" [classNamePrefix ++ "html", classNamePrefix ++ "last"] []
                [.text b, .text [mChar]])]]⟩ := by
      unfold processNode
      simp only [MdastNode.startOffset, MdastNode.endOffset]
      rw [if_neg (show ¬ ((if (0 : Nat) < initState.scanOffset then initState.scanOffset
        else 0) ≥ (a ++ '\n' :: b).length) by simp [initState])]
      rw [show (if (0 : Nat) < initState.scanOffset then initState.scanOffset else 0)
        = 0 from rfl]
      rw [show initState.scanOffset = 0 from rfl]
      rw [jsSlice_eq_nil (a ++ '\n' :: b) 0 0 (le_refl 0), addText_nil]
      rw [show pushFrame (.leaf "html" 0 (some 0) (some (a ++ '\n' :: b).length)) initState
        = ⟨0, [⟨.leaf "html" 0 (some 0) (some (a ++ '\n' :: b).length),
            El.create "div", true⟩], El.create "div", []⟩ from rfl]
      rw [show (⟨0, [⟨.leaf "html" 0 (some 0) (some (a ++ '\n' :: b).length),
          El.create "div", true⟩], El.create "div", []⟩ : RState).scanOffset = 0 from rfl]
      rw [jsSlice_full]
      rw [e3, e4]
      rfl
    unfold editorRender editorRenderState getChildren
    rw [show processNodes (a ++ '\n' :: b)
        [.leaf "html" 0 (some 0) (some (a ++ '\n' :: b).length)] 0 initState
      = processNode (a ++ '\n' :: b)
        (.leaf "html" 0 (some 0) (some (a ++ '\n' :: b).length)) 0 initState from rfl]
    rw [eNode]
    dsimp only
    rw [jsSlice_eq_nil (a ++ '\n' :: b) ((a ++ '\n' :: b).length + 1) (a ++ '\n' :: b).length
      (by omega), addText_nil]
    rw [if_neg (show ¬ ((a ++ '\n' :: b).length + 1 ≤ (a ++ '\n' :: b).length) by omega)]
    rfl
  · intro node first last h
    simp [styleClasses, h]

/-- C7, witness: the two-line scenario at concrete line contents, and the
no-marker clause at a paragraph node. -/
theorem c7_amended_witness :
    editorRender (['x'] ++ '\n' :: ['y'])
        [.leaf "html" 0 (some 0) (some (['x'] ++ '\n' :: ['y'] : List Char).length)]
      = El.mk "div" [] []
          [.elem (El.mk "div" [classNamePrefix ++ "block"] [("index", "0")]
            [.elem (El.mk "div" [classNamePrefix ++ "html", classNamePrefix ++ "first"] []
              [.text ['x'], .text [mChar]]),
             .elem (El.mk "div" [classNamePrefix ++ "html", classNamePrefix ++ "last"] []
              [.text ['y'], .text [mChar]])])]
      ∧ styleClasses (.leaf "paragraph" 0 (some 0) (some 1)) true true
          = [classNamePrefix ++ "paragraph"] :=
  ⟨c7_amended.1 ['x'] ['y'] (by decide) (by decide) (by decide) (by decide),
   by
    have h := c7_amended.2 (.leaf "paragraph" 0 (some 0) (some 1)) true true
      (by simp [MdastNode.ty])
    simpa [MdastNode.ty] using h⟩

/-- C8.  When the stack frame at depth `i` is closed, the style classes
go to the outermost open line element (frame 0's element) exactly when
`i = 0` or the parent frame's node is flow content (blockquote,
listItem, footnoteDefinition), and to the node's own element otherwise:
(a) the style index is 0 iff `i = 0` or the parent is flow content;
(b) for `2 ≤ i` with a non-flow parent, frame 0's element is untouched
and the element flushed into the parent carries the added classes;
(c) for `2 ≤ i` with a flow-content parent, frame 0's element receives
the classes and the flushed element is unchanged;
(d) Scenario D: a blockquote containing one paragraph on one line yields
the paragraph class and the blockquote class on the same line element,
not on two nested elements. -/
theorem c8_flow_classing :
    (∀ (st : RState) (i : Nat),
        styleIndex st i = 0 ↔ (i = 0 ∨ isFlowContent (st.fr (i - 1)).node))
      ∧ (∀ (st : RState) (i : Nat) (l : Bool), 2 ≤ i → i < st.stack.length →
          ¬ isFlowContent (st.fr (i - 1)).node →
          ((pushElement st i l).fr 0).el = (st.fr 0).el
            ∧ ((pushElement st i l).fr (i - 1)).el
                = (st.fr (i - 1)).el.appendChild
                    (.elem ((st.fr i).el.addClasses
                      (styleClasses (st.fr i).node (st.fr i).first l))))
      ∧ (∀ (st : RState) (i : Nat) (l : Bool), 2 ≤ i → i < st.stack.length →
          isFlowContent (st.fr (i - 1)).node →
          ((pushElement st i l).fr 0).el
              = (st.fr 0).el.addClasses (styleClasses (st.fr i).node (st.fr i).first l)
            ∧ ((pushElement st i l).fr (i - 1)).el
                = (st.fr (i - 1)).el.appendChild (.elem (st.fr i).el))
      ∧ editorRender ("> a".toList)
          [.parent "blockquote" 0 (some 0) (some 3)
            [.parent "paragraph" 0 (some 2) (some 3) [.leaf "text" 0 (some 2) (some 3)]]]
          = El.mk "div" [] []
              [.elem (El.mk "div" [classNamePrefix ++ "block"] [("index", "0")]
                [.elem (El.mk "div"
                  [classNamePrefix ++ "paragraph", classNamePrefix ++ "blockquote"] []
                  [.elem (El.mk "span" [classNamePrefix ++ "delimiter"] [] [.text "> ".toList]),
                   .elem (El.mk "span" [] []
                     [.elem (El.mk "span" [classNamePrefix ++ "text"] [] [.text ['a']])]),
                   .text [mChar]])])] := by
  refine ⟨?_, ?_, ?_, rfl⟩
  · intro st i
    unfold styleIndex
    by_cases h0 : i = 0
    · simp [h0]
    · by_cases hf : isFlowContent (st.fr (i - 1)).node
      · simp [h0, hf]
      · simp [h0, hf]
  · intro st i l hi hlen hflow
    have hsi : styleIndex st i = i := by
      unfold styleIndex
      rw [if_pos ⟨by omega, hflow⟩]
    unfold pushElement
    dsimp only
    rw [hsi, if_neg (show ¬ i = 0 by omega)]
    constructor
    · show ((((st.stack.set i _).set (i - 1) _).set i _).getD 0 default).el = _
      rw [getD_set_of_ne _ i 0 _ (by omega), getD_set_of_ne _ (i - 1) 0 _ (by omega),
        getD_set_of_ne _ i 0 _ (by omega)]
      rfl
    · show ((((st.stack.set i _).set (i - 1) _).set i _).getD (i - 1) default).el = _
      rw [getD_set_of_ne _ i (i - 1) _ (by omega),
        getD_set_self _ (i - 1) _ (by simpa using by omega)]
      show ((RState.fr _ (i - 1)).el.appendChild (.elem (RState.fr _ i).el)) = _
      simp only [RState.fr, RState.setFr]
      rw [getD_set_of_ne _ i (i - 1) _ (by omega), getD_set_self _ i _ (by simpa using hlen)]
  · intro st i l hi hlen hflow
    have hsi : styleIndex st i = 0 := by
      unfold styleIndex
      rw [if_neg (fun hc => hc.2 hflow)]
    unfold pushElement
    dsimp only
    rw [hsi, if_neg (show ¬ i = 0 by omega)]
    constructor
    · show ((((st.stack.set 0 _).set (i - 1) _).set i _).getD 0 default).el = _
      rw [getD_set_of_ne _ i 0 _ (by omega), getD_set_of_ne _ (i - 1) 0 _ (by omega),
        getD_set_self _ 0 _ (by omega)]
    · show ((((st.stack.set 0 _).set (i - 1) _).set i _).getD (i - 1) default).el = _
      rw [getD_set_of_ne _ i (i - 1) _ (by omega),
        getD_set_self _ (i - 1) _ (by simpa using by omega)]
      show ((RState.fr _ (i - 1)).el.appendChild (.elem (RState.fr _ i).el)) = _
      simp only [RState.fr, RState.setFr]
      rw [getD_set_of_ne _ 0 (i - 1) _ (by omega), getD_set_of_ne _ 0 i _ (by omega)]

/-- C8, witness: part (c) applied to a concrete three-frame stack whose
middle frame holds a blockquote. -/
theorem c8_flow_classing_witness :
    (2 : Nat) ≤ 2
      ∧ 2 < (RState.mk 0
          [⟨.leaf "paragraph" 0 none none, El.create "div", true⟩,
           ⟨.leaf "blockquote" 0 none none, El.create "span", true⟩,
           ⟨.leaf "text" 0 none none, El.create "span", true⟩]
          (El.create "div") []).stack.length
      ∧ (isFlowContent ((RState.mk 0
          [⟨.leaf "paragraph" 0 none none, El.create "div", true⟩,
           ⟨.leaf "blockquote" 0 none none, El.create "span", true⟩,
           ⟨.leaf "text" 0 none none, El.create "span", true⟩]
          (El.create "div") []).fr (2 - 1)).node = true)
      ∧ (((pushElement (RState.mk 0
          [⟨.leaf "paragraph" 0 none none, El.create "div", true⟩,
           ⟨.leaf "blockquote" 0 none none, El.create "span", true⟩,
           ⟨.leaf "text" 0 none none, El.create "span", true⟩]
          (El.create "div") []) 2 true).fr 0).el
        = ((RState.mk 0
          [⟨.leaf "paragraph" 0 none none, El.create "div", true⟩,
           ⟨.leaf "blockquote" 0 none none, El.create "span", true⟩,
           ⟨.leaf "text" 0 none none, El.create "span", true⟩]
          (El.create "div") []).fr 0).el.addClasses
            (styleClasses ((RState.mk 0
              [⟨.leaf "paragraph" 0 none none, El.create "div", true⟩,
               ⟨.leaf "blockquote" 0 none none, El.create "span", true⟩,
               ⟨.leaf "text" 0 none none, El.create "span", true⟩]
              (El.create "div") []).fr 2).node
              ((RState.mk 0
              [⟨.leaf "paragraph" 0 none none, El.create "div", true⟩,
               ⟨.leaf "blockquote" 0 none none, El.create "span", true⟩,
               ⟨.leaf "text" 0 none none, El.create "span", true⟩]
              (El.create "div") []).fr 2).first true)) := by
  refine ⟨by omega, by decide, by decide, ?_⟩
  exact (c8_flow_classing.2.2.1 (RState.mk 0
      [⟨.leaf "paragraph" 0 none none, El.create "div", true⟩,
       ⟨.leaf "blockquote" 0 none none, El.create "span", true⟩,
       ⟨.leaf "text" 0 none none, El.create "span", true⟩]
      (El.create "div") []) 2 true (by omega) (by decide) (by decide)).1

/-- C9.  `editorRender` is deterministic: identical source text and
parsed tree yield structurally identical output trees.  In this
embedding the whole pass is a pure function of `(src, tree)` — the
source uses no randomness, time, or state surviving between calls, and
fresh-element creation is structurally deterministic — so equal inputs
give equal outputs. -/
theorem c9_deterministic (src : List Char) (t₁ t₂ : List MdastNode) (h : t₁ = t₂) :
    editorRender src t₁ = editorRender src t₂ := by rw [h]

/-- C9, witness. -/
theorem c9_deterministic_witness :
    editorRender ['a'] [] = editorRender ['a'] [] :=
  c9_deterministic ['a'] [] [] rfl

/-- C10.  In `viewerRender`, a math node whose `meta` is non-empty is
turned into a `custom` element by the `math` handler and rendered by the
caller-supplied component `customBlocks[meta]` with the node's `value`
as its children; when `customBlocks` has no entry for that key, the
`?? 'div'` fallback renders a plain `div` element containing the value,
and no error is raised in either case. -/
theorem c10_custom_blocks (cb : String → Option String) (m v : String) (hm : m ≠ "") :
    (∀ c, cb m = some c → viewerRenderMath cb (some m) v = RNode.component c v)
      ∧ (cb m = none → viewerRenderMath cb (some m) v = RNode.element "div" v) := by
  constructor
  · intro c hc
    simp [viewerRenderMath, mathHandler, jsTruthy, renderCustomTag, hm, hc]
  · intro hc
    simp [viewerRenderMath, mathHandler, jsTruthy, renderCustomTag, hm, hc]

/-- C10, witness. -/
theorem c10_custom_blocks_witness :
    (∀ c, (fun k => if k = "chart" then some "ChartComponent" else none) "chart" = some c →
        viewerRenderMath (fun k => if k = "chart" then some "ChartComponent" else none)
          (some "chart") "payload" = RNode.component c "payload")
      ∧ ((fun k => if k = "chart" then some "ChartComponent" else none) "chart" = none →
        viewerRenderMath (fun k => if k = "chart" then some "ChartComponent" else none)
          (some "chart") "payload" = RNode.element "div" "payload") :=
  c10_custom_blocks (fun k => if k = "chart" then some "ChartComponent" else none)
    "chart" "payload" (by decide)

end XStar
